import Mathlib

/-!
Verification of the appbase plugin runtime against its specification.

The definitions below are a shallow embedding of the C++ sources:
`src/include/appbase/application.hpp` (the `application` class template
members and the `plugin<Impl>` lifecycle template) and
`src/application.cpp` / `src/unnamed/part_001` (the application member
functions).  Plugins are identified by natural numbers (standing for the
demangled type names the code uses); hooks are recorded as trace events.
-/

namespace Appbase

/-- The four lifecycle states of `abstract_plugin`
(`application.hpp`, `plugin<Impl>`: `_state = abstract_plugin::registered`,
transitions in `initialize`, `startup`, `shutdown`). -/
inductive PState where
  | registered
  | initialized
  | started
  | stopped
deriving DecidableEq, Repr

/-- Trace events recorded while plugins move through the lifecycle:
`flip p` is the assignment `_state = initialized` for plugin `p`,
`hook p` is the call of `p`'s `plugin_initialize` hook, and
`append p` is `app().plugin_initialized(*this)`, which pushes `p` onto
`initialized_plugins`. -/
inductive Ev where
  | flip (p : Nat)
  | hook (p : Nat)
  | append (p : Nat)
deriving DecidableEq, Repr

namespace Lifecycle

/-- State of the application during plugin initialization:
per-plugin lifecycle state, the `initialized_plugins` vector
(`initOrder`), and the chronological event trace. -/
structure St where
  pstate : Nat → PState
  initOrder : List Nat
  trace : List Ev

section Model

-- The static dependency set of each plugin: `deps p` lists the plugins
-- visited by `p`'s `plugin_requires` visitor (the `APPBASE_PLUGIN_REQUIRES`
-- declaration).
variable (deps : Nat → List Nat)

/-- Helper: run `g` on every element of a list in order, threading the
state, short-circuiting on fuel exhaustion.  This is the
`plugin_requires([&](auto& plug){ plug.initialize(cli, config); })`
visitation over a plugin's dependency list. -/
def initList (g : Nat → St → Option St) : List Nat → St → Option St
  | [], s => some s
  | q :: qs, s =>
    match g q s with
    | none => none
    | some s1 => initList g qs s1

/-- Shallow embedding of `plugin<Impl>::initialize` (application.hpp):
if the state is `registered`, first set `_state = initialized`, then
initialize every dependency via the `plugin_requires` visitor, then run
the plugin's own `plugin_initialize` hook and append it to
`initialized_plugins`; otherwise do nothing.  `fuel` bounds the
recursion depth (the C++ recursion is finite because the state is
flipped before recursing); `none` means the fuel ran out. -/
def initOne : Nat → Nat → St → Option St
  | 0, _, _ => none
  | fuel + 1, p, s =>
    if s.pstate p = PState.registered then
      let s1 : St :=
        { s with pstate := fun x => if x = p then PState.initialized else s.pstate x,
                 trace := s.trace ++ [Ev.flip p] }
      match initList (initOne fuel) (deps p) s1 with
      | none => none
      | some s2 =>
          some { s2 with trace := s2.trace ++ [Ev.hook p, Ev.append p],
                         initOrder := s2.initOrder ++ [p] }
    else some s

/-- A sequence of top-level `initialize` calls, as issued by
`application::initialize_impl` for the `--plugin` options and the
autostart plugins. -/
def runCalls (fuel : Nat) : List Nat → St → Option St
  | [], s => some s
  | p :: ps, s =>
    match initOne deps fuel p s with
    | none => none
    | some s1 => runCalls fuel ps s1

end Model

/-- The application state before any plugin has been initialized:
every plugin is `registered`, `initialized_plugins` is empty, nothing
has been traced. -/
def initialSt : St :=
  { pstate := fun _ => PState.registered, initOrder := [], trace := [] }

/-- Position helper: the index of the first occurrence of an element
freshly placed right after a list that does not contain it. -/
theorem indexOf_append_fresh {α : Type} [DecidableEq α] {a : α} {l t : List α}
    (h : a ∉ l) : (l ++ a :: t).indexOf a = l.length := by
  induction l with
  | nil => simp
  | cons x xs ih =>
    have hax : x ≠ a := by rintro rfl; exact h (List.mem_cons_self _ _)
    rw [List.cons_append, List.indexOf_cons_ne _ hax,
        ih (fun hm => h (List.mem_cons_of_mem _ hm))]
    simp

/-- The invariant carried through the recursive initialization walk.
`A` is the stack of "active" plugins: those whose `initialize` body is
in progress (state already flipped to `initialized`, not yet appended to
`initialized_plugins`). -/
structure Inv (deps : Nat → List Nat) (s : St) (A : List Nat) : Prop where
  flip_iff : ∀ p, s.pstate p ≠ PState.registered ↔ (p ∈ s.initOrder ∨ p ∈ A)
  order_nodup : s.initOrder.Nodup
  active_not_order : ∀ a ∈ A, a ∉ s.initOrder
  order_deps : ∀ p ∈ s.initOrder, ∀ q ∈ deps p,
      q ∈ s.initOrder ∧ s.initOrder.indexOf q < s.initOrder.indexOf p
  trace_nodup : s.trace.Nodup
  flip_mem : ∀ p, Ev.flip p ∈ s.trace ↔ s.pstate p ≠ PState.registered
  hook_mem : ∀ p, Ev.hook p ∈ s.trace ↔ p ∈ s.initOrder
  append_mem : ∀ p, Ev.append p ∈ s.trace ↔ p ∈ s.initOrder
  flip_hook : ∀ p ∈ s.initOrder,
      s.trace.indexOf (Ev.flip p) < s.trace.indexOf (Ev.hook p)
  hook_append : ∀ p ∈ s.initOrder,
      s.trace.indexOf (Ev.hook p) < s.trace.indexOf (Ev.append p)
  cross : ∀ p ∈ s.initOrder, ∀ q ∈ s.initOrder,
      s.initOrder.indexOf q < s.initOrder.indexOf p →
      s.trace.indexOf (Ev.append q) < s.trace.indexOf (Ev.hook p)

/-- The invariant holds before anything has run. -/
theorem inv_initial (deps : Nat → List Nat) : Inv deps initialSt [] := by
  constructor <;> simp [initialSt]

/-- Flipping a registered plugin to `initialized` (the first statement of
`plugin<Impl>::initialize`) pushes it onto the active stack and
preserves the invariant. -/
theorem inv_flip (deps : Nat → List Nat) {s : St} {A : List Nat} {p : Nat}
    (hInv : Inv deps s A) (hreg : s.pstate p = PState.registered) :
    Inv deps
      { s with pstate := fun x => if x = p then PState.initialized else s.pstate x,
               trace := s.trace ++ [Ev.flip p] } (p :: A) := by
  have hnot : ¬(p ∈ s.initOrder ∨ p ∈ A) := by
    intro hmem
    exact absurd hreg (by simpa using (hInv.flip_iff p).mpr hmem)
  have hpO : p ∉ s.initOrder := fun h => hnot (Or.inl h)
  have hpA : p ∉ A := fun h => hnot (Or.inr h)
  have hfmem : Ev.flip p ∉ s.trace := fun h =>
    absurd hreg (by simpa using (hInv.flip_mem p).mp h)
  constructor
  · intro x
    by_cases hx : x = p
    · subst hx
      simp
    · simp only [List.mem_cons, hx, false_or, hx]
      simpa [hx] using hInv.flip_iff x
  · exact hInv.order_nodup
  · intro a ha
    rcases List.mem_cons.mp ha with rfl | ha
    · exact hpO
    · exact hInv.active_not_order a ha
  · exact hInv.order_deps
  · simp only [List.nodup_append, List.nodup_singleton, true_and]
    exact ⟨hInv.trace_nodup, by simpa using hfmem⟩
  · intro x
    by_cases hx : x = p
    · subst hx
      simp
    · simp only [List.mem_append, List.mem_singleton, Ev.flip.injEq, hx, or_false]
      simpa [hx] using hInv.flip_mem x
  · intro x
    simpa using hInv.hook_mem x
  · intro x
    simpa using hInv.append_mem x
  · intro x hx
    have hf : Ev.flip x ∈ s.trace :=
      (hInv.flip_mem x).mpr ((hInv.flip_iff x).mpr (Or.inl hx))
    have hh : Ev.hook x ∈ s.trace := (hInv.hook_mem x).mpr hx
    simpa [List.indexOf_append_of_mem hf, List.indexOf_append_of_mem hh] using
      hInv.flip_hook x hx
  · intro x hx
    have hh : Ev.hook x ∈ s.trace := (hInv.hook_mem x).mpr hx
    have ha : Ev.append x ∈ s.trace := (hInv.append_mem x).mpr hx
    simpa [List.indexOf_append_of_mem hh, List.indexOf_append_of_mem ha] using
      hInv.hook_append x hx
  · intro x hx y hy hord
    have hh : Ev.hook x ∈ s.trace := (hInv.hook_mem x).mpr hx
    have ha : Ev.append y ∈ s.trace := (hInv.append_mem y).mpr hy
    simpa [List.indexOf_append_of_mem hh, List.indexOf_append_of_mem ha] using
      hInv.cross x hx y hy hord

/-- Completing a plugin (running its `plugin_initialize` hook and
appending it to `initialized_plugins`) pops it off the active stack and
preserves the invariant, provided all of its dependencies are already in
`initialized_plugins`. -/
theorem inv_complete (deps : Nat → List Nat) {s2 : St} {A : List Nat} {p : Nat}
    (hInv : Inv deps s2 (p :: A))
    (hdeps : ∀ q ∈ deps p, q ∈ s2.initOrder)
    (hflip : s2.pstate p ≠ PState.registered)
    (hpA : p ∉ A) :
    Inv deps
      { s2 with trace := s2.trace ++ [Ev.hook p, Ev.append p],
                initOrder := s2.initOrder ++ [p] } A := by
  have hpO : p ∉ s2.initOrder := hInv.active_not_order p (List.mem_cons_self _ _)
  have hhook : Ev.hook p ∉ s2.trace := fun h => hpO ((hInv.hook_mem p).mp h)
  have happend : Ev.append p ∉ s2.trace := fun h => hpO ((hInv.append_mem p).mp h)
  have hflipmem : Ev.flip p ∈ s2.trace := (hInv.flip_mem p).mpr hflip
  have idxHook : (s2.trace ++ [Ev.hook p, Ev.append p]).indexOf (Ev.hook p)
      = s2.trace.length := indexOf_append_fresh hhook
  have idxAppend : (s2.trace ++ [Ev.hook p, Ev.append p]).indexOf (Ev.append p)
      = s2.trace.length + 1 := by
    have : s2.trace ++ [Ev.hook p, Ev.append p]
        = (s2.trace ++ [Ev.hook p]) ++ [Ev.append p] := by simp
    rw [this, indexOf_append_fresh (by simp [happend])]
    simp
  have idxOrdP : (s2.initOrder ++ [p]).indexOf p = s2.initOrder.length :=
    indexOf_append_fresh hpO
  constructor
  · intro x
    by_cases hx : x = p
    · subst hx
      simp [hflip]
    · have := hInv.flip_iff x
      simp only [List.mem_cons, hx, false_or] at this
      simpa [hx] using this
  · simp only [List.nodup_append, List.nodup_singleton, true_and]
    exact ⟨hInv.order_nodup, by simpa using hpO⟩
  · intro a ha
    have hao : a ∉ s2.initOrder := hInv.active_not_order a (List.mem_cons_of_mem _ ha)
    have hap : a ≠ p := fun h => hpA (h ▸ ha)
    simp [hao, hap]
  · intro x hx q hq
    dsimp only at hx ⊢
    rcases List.mem_append.mp hx with hxo | hxp
    · obtain ⟨hqm, hqi⟩ := hInv.order_deps x hxo q hq
      refine ⟨List.mem_append_left _ hqm, ?_⟩
      rw [List.indexOf_append_of_mem hqm, List.indexOf_append_of_mem hxo]
      exact hqi
    · have hx2 : x = p := by simpa using hxp
      have hqm := hdeps q (hx2 ▸ hq)
      refine ⟨List.mem_append_left _ hqm, ?_⟩
      rw [hx2, List.indexOf_append_of_mem hqm, idxOrdP]
      exact List.indexOf_lt_length.mpr hqm
  · simp only [List.nodup_append, true_and]
    refine ⟨hInv.trace_nodup, by simp, ?_⟩
    intro e he hmem
    simp only [List.mem_cons, List.not_mem_nil, or_false] at hmem
    rcases hmem with rfl | rfl
    · exact hhook he
    · exact happend he
  · intro x
    have := hInv.flip_mem x
    simp only [List.mem_append]
    simpa using this
  · intro x
    by_cases hx : x = p
    · subst hx
      simp
    · have := hInv.hook_mem x
      simp [hx, this]
  · intro x
    by_cases hx : x = p
    · subst hx
      simp
    · have := hInv.append_mem x
      simp [hx, this]
  · intro x hx
    dsimp only at hx ⊢
    rcases List.mem_append.mp hx with hxo | hxp
    · have hf : Ev.flip x ∈ s2.trace :=
        (hInv.flip_mem x).mpr ((hInv.flip_iff x).mpr (Or.inl hxo))
      have hh : Ev.hook x ∈ s2.trace := (hInv.hook_mem x).mpr hxo
      rw [List.indexOf_append_of_mem hf, List.indexOf_append_of_mem hh]
      exact hInv.flip_hook x hxo
    · have hx2 : x = p := by simpa using hxp
      rw [hx2, List.indexOf_append_of_mem hflipmem, idxHook]
      exact List.indexOf_lt_length.mpr hflipmem
  · intro x hx
    dsimp only at hx ⊢
    rcases List.mem_append.mp hx with hxo | hxp
    · have hh : Ev.hook x ∈ s2.trace := (hInv.hook_mem x).mpr hxo
      have ha : Ev.append x ∈ s2.trace := (hInv.append_mem x).mpr hxo
      rw [List.indexOf_append_of_mem hh, List.indexOf_append_of_mem ha]
      exact hInv.hook_append x hxo
    · have hx2 : x = p := by simpa using hxp
      rw [hx2, idxHook, idxAppend]
      exact Nat.lt_succ_self _
  · intro x hx y hy hord
    dsimp only at hx hy hord ⊢
    rcases List.mem_append.mp hx with hxo | hxp
    · rcases List.mem_append.mp hy with hyo | hyp
      · have hh : Ev.hook x ∈ s2.trace := (hInv.hook_mem x).mpr hxo
        have ha : Ev.append y ∈ s2.trace := (hInv.append_mem y).mpr hyo
        rw [List.indexOf_append_of_mem ha, List.indexOf_append_of_mem hh]
        apply hInv.cross x hxo y hyo
        rw [List.indexOf_append_of_mem hyo, List.indexOf_append_of_mem hxo] at hord
        exact hord
      · have hy2 : y = p := by simpa using hyp
        rw [hy2, List.indexOf_append_of_mem hxo, idxOrdP] at hord
        exact absurd hord (Nat.not_lt.mpr (List.indexOf_lt_length.mpr hxo).le)
    · have hx2 : x = p := by simpa using hxp
      rcases List.mem_append.mp hy with hyo | hyp
      · have ha : Ev.append y ∈ s2.trace := (hInv.append_mem y).mpr hyo
        rw [hx2, List.indexOf_append_of_mem ha, idxHook]
        exact List.indexOf_lt_length.mpr ha
      · have hy2 : y = p := by simpa using hyp
        rw [hx2, hy2] at hord
        exact absurd hord (lt_irrefl _)

/-- What one recursive `initialize` call guarantees: the invariant is
preserved, `initialized_plugins` and the trace only grow at the end, and
afterwards the argument plugin is initialized (or it was an active
ancestor, which only happens on a cyclic dependency graph). -/
def StepProp (deps : Nat → List Nat) (rkf : Nat → Nat) (g : Nat → St → Option St) : Prop :=
  ∀ p A s s1, g p s = some s1 → Inv deps s A → (∀ a ∈ A, rkf p < rkf a) →
    Inv deps s1 A ∧ s.initOrder <+: s1.initOrder ∧ s.trace <+: s1.trace ∧
    (p ∈ s1.initOrder ∨ p ∈ A)

/-- The `plugin_requires` visitation over a dependency list inherits the
step property of the single-plugin call. -/
theorem initList_step (deps : Nat → List Nat) (rkf : Nat → Nat)
    (g : Nat → St → Option St) (hg : StepProp deps rkf g) :
    ∀ qs A s s1, initList g qs s = some s1 → Inv deps s A →
      (∀ q ∈ qs, ∀ a ∈ A, rkf q < rkf a) →
      Inv deps s1 A ∧ s.initOrder <+: s1.initOrder ∧ s.trace <+: s1.trace ∧
      (∀ q ∈ qs, q ∈ s1.initOrder ∨ q ∈ A) := by
  intro qs
  induction qs with
  | nil =>
    intro A s s1 h hInv hA
    simp only [initList, Option.some.injEq] at h
    subst h
    exact ⟨hInv, List.prefix_refl _, List.prefix_refl _, by simp⟩
  | cons q qs ih =>
    intro A s s1 h hInv hA
    simp only [initList] at h
    cases hgq : g q s with
    | none => rw [hgq] at h; cases h
    | some smid =>
      rw [hgq] at h
      obtain ⟨hInvM, hpreM, htrM, hqM⟩ :=
        hg q A s smid hgq hInv (hA q (List.mem_cons_self _ _))
      obtain ⟨hInv1, hpre1, htr1, hqs1⟩ :=
        ih A smid s1 h hInvM (fun x hx => hA x (List.mem_cons_of_mem _ hx))
      refine ⟨hInv1, hpreM.trans hpre1, htrM.trans htr1, ?_⟩
      intro x hx
      rcases List.mem_cons.mp hx with rfl | hx
      · rcases hqM with hq | hq
        · exact Or.inl (hpre1.subset hq)
        · exact Or.inr hq
      · exact hqs1 x hx

/-- Main induction: `plugin<Impl>::initialize` satisfies the step
property for every fuel bound, given a rank function witnessing that the
dependency graph is acyclic (the source treats cyclic dependency
declarations as caller error). -/
theorem initOne_step (deps : Nat → List Nat) (rkf : Nat → Nat)
    (hrank : ∀ p, ∀ q ∈ deps p, rkf q < rkf p) :
    ∀ fuel, StepProp deps rkf (initOne deps fuel) := by
  intro fuel
  induction fuel with
  | zero => intro p A s s1 h; cases h
  | succ fuel ih =>
    intro p A s s1 h hInv hA
    simp only [initOne] at h
    by_cases hreg : s.pstate p = PState.registered
    · rw [if_pos hreg] at h
      cases hL : initList (initOne deps fuel) (deps p)
          { s with pstate := fun x => if x = p then PState.initialized else s.pstate x,
                   trace := s.trace ++ [Ev.flip p] } with
      | none => rw [hL] at h; cases h
      | some s2 =>
        rw [hL] at h
        obtain rfl := Option.some.injEq .. |>.mp h
        have hInvF := inv_flip deps hInv hreg
        have hpA : p ∉ A := fun hm =>
          absurd hreg (by simpa using (hInv.flip_iff p).mpr (Or.inr hm))
        have hA2 : ∀ q ∈ deps p, ∀ a ∈ p :: A, rkf q < rkf a := by
          intro q hq a ha
          rcases List.mem_cons.mp ha with rfl | ha
          · exact hrank _ q hq
          · exact (hrank _ q hq).trans (hA a ha)
        obtain ⟨hInv2, hpre2, htr2, hmem2⟩ :=
          initList_step deps rkf (initOne deps fuel) ih (deps p) (p :: A) _ s2 hL hInvF
            (fun q hq a ha => hA2 q hq a ha)
        have hdeps : ∀ q ∈ deps p, q ∈ s2.initOrder := by
          intro q hq
          rcases hmem2 q hq with hok | hbad
          · exact hok
          · rcases List.mem_cons.mp hbad with rfl | hbad
            · exact absurd (hrank _ q hq) (lt_irrefl _)
            · exact absurd ((hrank _ q hq).trans (hA q hbad)) (lt_irrefl _)
        have hflip2 : s2.pstate p ≠ PState.registered :=
          (hInv2.flip_iff p).mpr (Or.inr (List.mem_cons_self _ _))
        refine ⟨inv_complete deps hInv2 hdeps hflip2 hpA, ?_, ?_, ?_⟩
        · exact (hpre2.trans (List.prefix_append _ _))
        · exact ((List.prefix_append _ _).trans htr2).trans (List.prefix_append _ _)
        · exact Or.inl (by simp)
    · rw [if_neg hreg] at h
      obtain rfl := Option.some.injEq .. |>.mp h
      exact ⟨hInv, List.prefix_refl _, List.prefix_refl _, (hInv.flip_iff p).mp hreg⟩

/-- Any sequence of top-level `initialize` calls preserves the invariant
with an empty active stack. -/
theorem runCalls_inv (deps : Nat → List Nat) (rkf : Nat → Nat)
    (hrank : ∀ p, ∀ q ∈ deps p, rkf q < rkf p) (fuel : Nat) :
    ∀ calls s s1, runCalls deps fuel calls s = some s1 → Inv deps s [] →
      Inv deps s1 [] := by
  intro calls
  induction calls with
  | nil =>
    intro s s1 h hInv
    simp only [runCalls, Option.some.injEq] at h
    exact h ▸ hInv
  | cons p ps ih =>
    intro s s1 h hInv
    simp only [runCalls] at h
    cases hgq : initOne deps fuel p s with
    | none => rw [hgq] at h; cases h
    | some smid =>
      rw [hgq] at h
      obtain ⟨hInvM, _, _, _⟩ :=
        initOne_step deps rkf hrank fuel p [] s smid hgq hInv (by simp)
      exact ih smid s1 h hInvM

end Lifecycle

/-- Claim C1: for plugins P and Q where P depends on Q (Q is in P's
`plugin_requires` set), under any sequence of top-level `initialize`
calls after which P is in `initialized_plugins`, Q is there too and Q's
transition strictly precedes P's: Q's state flip to `initialized`, Q's
`plugin_initialize` hook, and Q's append to `initialized_plugins` all
occur in the trace before P's own hook runs, which itself precedes P's
append.  The rank function `rkf` witnesses that the dependency graph is
acyclic, which the source requires of the caller. -/
theorem claim_c1_dependency_init_order
    (deps : Nat → List Nat) (rkf : Nat → Nat)
    (hrank : ∀ p, ∀ q ∈ deps p, rkf q < rkf p)
    (fuel : Nat) (calls : List Nat) (s : Lifecycle.St)
    (hrun : Lifecycle.runCalls deps fuel calls Lifecycle.initialSt = some s)
    (P Q : Nat) (hPQ : Q ∈ deps P) (hP : P ∈ s.initOrder) :
    Q ∈ s.initOrder ∧
    s.initOrder.indexOf Q < s.initOrder.indexOf P ∧
    Ev.flip Q ∈ s.trace ∧ Ev.hook Q ∈ s.trace ∧ Ev.append Q ∈ s.trace ∧
    Ev.hook P ∈ s.trace ∧ Ev.append P ∈ s.trace ∧
    s.trace.indexOf (Ev.flip Q) < s.trace.indexOf (Ev.hook P) ∧
    s.trace.indexOf (Ev.hook Q) < s.trace.indexOf (Ev.hook P) ∧
    s.trace.indexOf (Ev.append Q) < s.trace.indexOf (Ev.hook P) ∧
    s.trace.indexOf (Ev.hook P) < s.trace.indexOf (Ev.append P) := by
  have hInv := Lifecycle.runCalls_inv deps rkf hrank fuel calls Lifecycle.initialSt s hrun
    (Lifecycle.inv_initial deps)
  obtain ⟨hQ, hlt⟩ := hInv.order_deps P hP Q hPQ
  have h1 := hInv.flip_hook Q hQ
  have h2 := hInv.hook_append Q hQ
  have h3 := hInv.cross P hP Q hQ hlt
  have h4 := hInv.hook_append P hP
  exact ⟨hQ, hlt, (hInv.flip_mem Q).mpr ((hInv.flip_iff Q).mpr (Or.inl hQ)),
    (hInv.hook_mem Q).mpr hQ, (hInv.append_mem Q).mpr hQ,
    (hInv.hook_mem P).mpr hP, (hInv.append_mem P).mpr hP,
    (h1.trans h2).trans h3, h2.trans h3, h3, h4⟩

/-- Concrete dependency graph for witnesses: plugin 2 depends on
plugin 1, exactly as `net_plugin` requires `chain_plugin` in
`examples/main.cpp`. -/
def wdeps : Nat → List Nat := fun p => if p = 2 then [1] else []

/-- The identity rank function certifies that `wdeps` is acyclic. -/
theorem wdeps_rank : ∀ p, ∀ q ∈ wdeps p, id q < id p := by
  intro p q hq
  by_cases hp : p = 2 <;> simp [wdeps, hp] at hq
  subst hq
  subst hp
  decide

/-- The state after one top-level `initialize` call on plugin 2. -/
def c1WitnessSt : Lifecycle.St :=
  (Lifecycle.runCalls wdeps 3 [2] Lifecycle.initialSt).getD Lifecycle.initialSt

/-- Witness for C1 at the concrete two-plugin graph. -/
theorem claim_c1_dependency_init_order_witness :
    (1 ∈ wdeps 2 ∧ 2 ∈ c1WitnessSt.initOrder) ∧
    (1 ∈ c1WitnessSt.initOrder ∧
     c1WitnessSt.initOrder.indexOf 1 < c1WitnessSt.initOrder.indexOf 2 ∧
     Ev.flip 1 ∈ c1WitnessSt.trace ∧ Ev.hook 1 ∈ c1WitnessSt.trace ∧
     Ev.append 1 ∈ c1WitnessSt.trace ∧ Ev.hook 2 ∈ c1WitnessSt.trace ∧
     Ev.append 2 ∈ c1WitnessSt.trace ∧
     c1WitnessSt.trace.indexOf (Ev.flip 1) < c1WitnessSt.trace.indexOf (Ev.hook 2) ∧
     c1WitnessSt.trace.indexOf (Ev.hook 1) < c1WitnessSt.trace.indexOf (Ev.hook 2) ∧
     c1WitnessSt.trace.indexOf (Ev.append 1) < c1WitnessSt.trace.indexOf (Ev.hook 2) ∧
     c1WitnessSt.trace.indexOf (Ev.hook 2) < c1WitnessSt.trace.indexOf (Ev.append 2)) :=
  ⟨⟨by decide, by decide⟩,
   claim_c1_dependency_init_order wdeps id wdeps_rank 3 [2] c1WitnessSt rfl 2 1
     (by decide) (by decide)⟩

namespace Lifecycle

/-- A plugin whose state has left `registered` keeps that property and
never has its `plugin_initialize` hook traced again by any later
`initialize` call: the `if(_state == registered)` guard blocks re-entry. -/
theorem initOne_count_frozen (deps : Nat → List Nat) (x : Nat) :
    ∀ fuel q s s1, initOne deps fuel q s = some s1 →
      s.pstate x ≠ PState.registered →
      s1.pstate x ≠ PState.registered ∧
      s1.trace.count (Ev.hook x) = s.trace.count (Ev.hook x) := by
  intro fuel
  induction fuel with
  | zero => intro q s s1 h; cases h
  | succ fuel ih =>
    have ihList : ∀ qs s s1, initList (initOne deps fuel) qs s = some s1 →
        s.pstate x ≠ PState.registered →
        s1.pstate x ≠ PState.registered ∧
        s1.trace.count (Ev.hook x) = s.trace.count (Ev.hook x) := by
      intro qs
      induction qs with
      | nil =>
        intro s s1 h hx
        simp only [initList, Option.some.injEq] at h
        exact h ▸ ⟨hx, rfl⟩
      | cons q qs ihq =>
        intro s s1 h hx
        simp only [initList] at h
        cases hgq : initOne deps fuel q s with
        | none => rw [hgq] at h; cases h
        | some smid =>
          rw [hgq] at h
          obtain ⟨hx1, hc1⟩ := ih q s smid hgq hx
          obtain ⟨hx2, hc2⟩ := ihq smid s1 h hx1
          exact ⟨hx2, hc2.trans hc1⟩
    intro q s s1 h hx
    simp only [initOne] at h
    by_cases hreg : s.pstate q = PState.registered
    · have hqx : q ≠ x := fun he => hx (he ▸ hreg)
      rw [if_pos hreg] at h
      cases hL : initList (initOne deps fuel) (deps q)
          { s with pstate := fun y => if y = q then PState.initialized else s.pstate y,
                   trace := s.trace ++ [Ev.flip q] } with
      | none => rw [hL] at h; cases h
      | some s2 =>
        rw [hL] at h
        obtain rfl := Option.some.injEq .. |>.mp h
        have hx1 : (fun y => if y = q then PState.initialized else s.pstate y) x
            ≠ PState.registered := by
          simp [hqx.symm, hx]
        obtain ⟨hx2, hc2⟩ := ihList (deps q) _ s2 hL (by simpa using hx1)
        refine ⟨hx2, ?_⟩
        have hhq : (Ev.hook q) ≠ (Ev.hook x) := by simp [hqx]
        have hfq : (Ev.flip q) ≠ (Ev.hook x) := by simp
        have haq : (Ev.append q) ≠ (Ev.hook x) := by simp
        simp only [List.count_append]
        rw [hc2]
        simp [List.count_append, List.count_cons, List.count_singleton, hhq, hfq, haq]
    · rw [if_neg hreg] at h
      obtain rfl := Option.some.injEq .. |>.mp h
      exact ⟨hx, rfl⟩

/-- List version of `initOne_count_frozen`, for the dependency
visitation. -/
theorem initList_count_frozen (deps : Nat → List Nat) (x fuel : Nat) :
    ∀ qs s s1, initList (initOne deps fuel) qs s = some s1 →
      s.pstate x ≠ PState.registered →
      s1.pstate x ≠ PState.registered ∧
      s1.trace.count (Ev.hook x) = s.trace.count (Ev.hook x) := by
  intro qs
  induction qs with
  | nil =>
    intro s s1 h hx
    simp only [initList, Option.some.injEq] at h
    exact h ▸ ⟨hx, rfl⟩
  | cons q qs ihq =>
    intro s s1 h hx
    simp only [initList] at h
    cases hgq : initOne deps fuel q s with
    | none => rw [hgq] at h; cases h
    | some smid =>
      rw [hgq] at h
      obtain ⟨hx1, hc1⟩ := initOne_count_frozen deps x fuel q s smid hgq hx
      obtain ⟨hx2, hc2⟩ := ihq smid s1 h hx1
      exact ⟨hx2, hc2.trans hc1⟩

/-- Calling `initialize` on a plugin that is no longer `registered` is a
no-op: the state is returned unchanged. -/
theorem initOne_noop (deps : Nat → List Nat) (fuel p : Nat) (s : St)
    (h : s.pstate p ≠ PState.registered) :
    initOne deps (fuel + 1) p s = some s := by
  simp [initOne, h]

/-- The first `initialize` call on a registered plugin runs its
`plugin_initialize` hook exactly once and leaves `registered`. -/
theorem initOne_count_once (deps : Nat → List Nat) (fuel p : Nat) (s s1 : St)
    (h : initOne deps (fuel + 1) p s = some s1)
    (hreg : s.pstate p = PState.registered) :
    s1.pstate p ≠ PState.registered ∧
    s1.trace.count (Ev.hook p) = s.trace.count (Ev.hook p) + 1 := by
  simp only [initOne] at h
  rw [if_pos hreg] at h
  cases hL : initList (initOne deps fuel) (deps p)
      { s with pstate := fun y => if y = p then PState.initialized else s.pstate y,
               trace := s.trace ++ [Ev.flip p] } with
  | none => rw [hL] at h; cases h
  | some s2 =>
    rw [hL] at h
    obtain rfl := Option.some.injEq .. |>.mp h
    have hx1 : ({ s with
        pstate := fun y => if y = p then PState.initialized else s.pstate y,
        trace := s.trace ++ [Ev.flip p] } : St).pstate p ≠ PState.registered := by
      simp
    obtain ⟨hx2, hc2⟩ := initList_count_frozen deps p fuel (deps p) _ s2 hL hx1
    refine ⟨hx2, ?_⟩
    simp only [List.count_append]
    rw [hc2]
    simp [List.count_append, List.count_cons]

/-- `k + 1` successive top-level `initialize` calls on the same
plugin. -/
def initN (deps : Nat → List Nat) (fuel p : Nat) : Nat → St → Option St
  | 0, s => initOne deps fuel p s
  | k + 1, s =>
    match initOne deps fuel p s with
    | none => none
    | some s1 => initN deps fuel p k s1

/-- Once a plugin is no longer `registered`, any number of further
`initialize` calls return the state unchanged. -/
theorem initN_noop (deps : Nat → List Nat) (fuel p : Nat) (s : St)
    (h : s.pstate p ≠ PState.registered) :
    ∀ k, initN deps (fuel + 1) p k s = some s := by
  intro k
  induction k with
  | zero => exact initOne_noop deps fuel p s h
  | succ k ihk =>
    simp only [initN]
    rw [initOne_noop deps fuel p s h]
    exact ihk

end Lifecycle

namespace Reg

/-- The plugin registry of `application`: the `plugins` map (an
association list from demangled type name to the plugin instance,
insertion at the back) together with a counter supplying the identity of
each freshly constructed instance. -/
structure RegSt where
  m : List (String × Nat)
  next : Nat

/-- `std::map::find` over the association list: first binding wins. -/
def findName : List (String × Nat) → String → Option Nat
  | [], _ => none
  | (k, v) :: rest, n => if k = n then some v else findName rest n

section Model

-- `depsOf n` lists the type names in plugin `n`'s
-- `APPBASE_PLUGIN_REQUIRES` declaration, visited by
-- `register_dependencies`.
variable (depsOf : String → List String)

/-- Visitation of a dependency list, threading the registry. -/
def regList (g : String → RegSt → Option RegSt) : List String → RegSt → Option RegSt
  | [], r => some r
  | d :: ds, r =>
    match g d r with
    | none => none
    | some r1 => regList g ds r1

/-- Shallow embedding of `application::register_plugin<Plugin>()`
(application.hpp): if a plugin of this type already exists, return the
existing instance with the registry unchanged; otherwise construct a
fresh instance, insert it into the `plugins` map, and register its
dependencies transitively (`register_dependencies`, whose visitor
registers each required plugin — modelled from the spec for the
`APPBASE_PLUGIN_REQUIRES` expansion in the `plugin.hpp` header, which is
not under src/).  `fuel` bounds the recursion; `none` is exhaustion. -/
def registerOne : Nat → String → RegSt → Option (RegSt × Nat)
  | 0, _, _ => none
  | fuel + 1, n, r =>
    match findName r.m n with
    | some i => some (r, i)
    | none =>
      let i := r.next
      let r1 : RegSt := { m := r.m ++ [(n, i)], next := i + 1 }
      match regList (fun d t => (registerOne fuel d t).map Prod.fst) (depsOf n) r1 with
      | none => none
      | some r2 => some (r2, i)

/-- `k + 1` successive `register_plugin` calls for the same type. -/
def registerN (fuel : Nat) (n : String) : Nat → RegSt → Option (RegSt × Nat)
  | 0, r => registerOne depsOf fuel n r
  | k + 1, r =>
    match registerOne depsOf fuel n r with
    | none => none
    | some (r1, _) => registerN fuel n k r1

end Model

/-- A binding found in a map is still found after appending. -/
theorem findName_append_some {m : List (String × Nat)} {n : String} {i : Nat}
    (h : findName m n = some i) (t : List (String × Nat)) :
    findName (m ++ t) n = some i := by
  induction m with
  | nil => cases h
  | cons kv rest ih =>
    obtain ⟨k, v⟩ := kv
    by_cases hk : k = n
    · simpa [findName, hk] using h
    · simp only [findName, hk, if_neg] at h ⊢
      simp only [List.cons_append, findName, hk, if_neg, if_false]
      exact ih h

/-- A name absent from a map is found right after being inserted. -/
theorem findName_append_fresh {m : List (String × Nat)} {n : String}
    (h : findName m n = none) (i : Nat) (t : List (String × Nat)) :
    findName (m ++ (n, i) :: t) n = some i := by
  induction m with
  | nil => simp [findName]
  | cons kv rest ih =>
    obtain ⟨k, v⟩ := kv
    by_cases hk : k = n
    · simp [findName, hk] at h
    · simp only [findName, hk, if_neg] at h
      simp only [List.cons_append, findName, hk, if_neg, if_false]
      exact ih h

/-- The dependency visitation only ever appends to the `plugins` map
whenever the per-plugin call does. -/
theorem regList_mono (g : String → RegSt → Option RegSt)
    (hg : ∀ d r r1, g d r = some r1 → ∃ t, r1.m = r.m ++ t) :
    ∀ ds r r1, regList g ds r = some r1 → ∃ t, r1.m = r.m ++ t := by
  intro ds
  induction ds with
  | nil =>
    intro r r1 h
    simp only [regList, Option.some.injEq] at h
    exact ⟨[], by simp [h]⟩
  | cons d ds ihd =>
    intro r r1 h
    simp only [regList] at h
    cases hgd : g d r with
    | none => rw [hgd] at h; cases h
    | some rmid =>
      rw [hgd] at h
      obtain ⟨t1, ht1⟩ := hg d r rmid hgd
      obtain ⟨t2, ht2⟩ := ihd rmid r1 h
      exact ⟨t1 ++ t2, by simp [ht2, ht1]⟩

/-- `register_plugin` only ever appends to the `plugins` map. -/
theorem registerOne_mono (depsOf : String → List String) :
    ∀ fuel n r r1 i, registerOne depsOf fuel n r = some (r1, i) →
      ∃ t, r1.m = r.m ++ t := by
  intro fuel
  induction fuel with
  | zero => intro n r r1 i h; cases h
  | succ fuel ih =>
    intro n r r1 i h
    simp only [registerOne] at h
    cases hf : findName r.m n with
    | some j =>
      rw [hf] at h
      obtain ⟨h1, h2⟩ := Prod.mk.injEq .. |>.mp (Option.some.injEq .. |>.mp h)
      exact ⟨[], by simp [← h1]⟩
    | none =>
      rw [hf] at h
      cases hL : regList (fun d t => (registerOne depsOf fuel d t).map Prod.fst)
          (depsOf n) { m := r.m ++ [(n, r.next)], next := r.next + 1 } with
      | none => rw [hL] at h; cases h
      | some r2 =>
        rw [hL] at h
        obtain ⟨h1, h2⟩ := Prod.mk.injEq .. |>.mp (Option.some.injEq .. |>.mp h)
        have hg : ∀ d ra rb, (registerOne depsOf fuel d ra).map Prod.fst = some rb →
            ∃ t, rb.m = ra.m ++ t := by
          intro d ra rb hd
          obtain ⟨⟨rc, ic⟩, hreg, hfst⟩ := Option.map_eq_some'.mp hd
          exact hfst ▸ ih d ra rc ic hreg
        obtain ⟨t, ht⟩ := regList_mono _ hg (depsOf n) _ r2 hL
        exact ⟨(n, r.next) :: t, by simp [← h1, ht]⟩

/-- After a successful `register_plugin`, the type's binding is in the
map, bound to the returned instance. -/
theorem registerOne_found (depsOf : String → List String)
    (fuel : Nat) (n : String) (r r1 : RegSt) (i : Nat)
    (h : registerOne depsOf (fuel + 1) n r = some (r1, i)) :
    findName r1.m n = some i := by
  simp only [registerOne] at h
  cases hf : findName r.m n with
  | some j =>
    rw [hf] at h
    obtain ⟨h1, h2⟩ := Prod.mk.injEq .. |>.mp (Option.some.injEq .. |>.mp h)
    rw [← h1, ← h2]
    exact hf
  | none =>
    rw [hf] at h
    cases hL : regList (fun d t => (registerOne depsOf fuel d t).map Prod.fst)
        (depsOf n) { m := r.m ++ [(n, r.next)], next := r.next + 1 } with
    | none => rw [hL] at h; cases h
    | some r2 =>
      rw [hL] at h
      obtain ⟨h1, h2⟩ := Prod.mk.injEq .. |>.mp (Option.some.injEq .. |>.mp h)
      have hg : ∀ d ra rb, (registerOne depsOf fuel d ra).map Prod.fst = some rb →
          ∃ t, rb.m = ra.m ++ t := by
        intro d ra rb hd
        obtain ⟨⟨rc, ic⟩, hreg, hfst⟩ := Option.map_eq_some'.mp hd
        exact hfst ▸ registerOne_mono depsOf fuel d ra rc ic hreg
      obtain ⟨t, ht⟩ := regList_mono _ hg (depsOf n) _ r2 hL
      have hfresh : findName ((r.m ++ [(n, r.next)]) ++ t) n = some r.next := by
        rw [List.append_assoc]
        exact findName_append_fresh hf r.next ([(n, r.next)] ++ t).tail
      rw [← h1, ← h2]
      simpa [ht] using hfresh

/-- A hit on the `plugins` map returns the registry unchanged together
with the existing instance. -/
theorem registerOne_hit (depsOf : String → List String)
    (fuel : Nat) (n : String) (r : RegSt) (i : Nat)
    (h : findName r.m n = some i) :
    registerOne depsOf (fuel + 1) n r = some (r, i) := by
  simp [registerOne, h]

/-- Repeated registration collapses: every call after a successful one
returns the same registry and the same instance. -/
theorem registerN_stable (depsOf : String → List String)
    (fuel : Nat) (n : String) (r1 : RegSt) (i : Nat) :
    ∀ k r, registerOne depsOf (fuel + 1) n r = some (r1, i) →
      registerN depsOf (fuel + 1) n k r = some (r1, i) := by
  intro k
  induction k with
  | zero => intro r h; exact h
  | succ k ihk =>
    intro r h
    simp only [registerN]
    rw [h]
    exact ihk r1 (registerOne_hit depsOf fuel n r1 i
      (registerOne_found depsOf fuel n r r1 i h))

end Reg

/-- Claim C3: registering the same plugin type N = k + 1 times yields
exactly one instance — every call after the first returns the existing
instance with the registry unchanged — and calling `initialize` on a
registered plugin N = m + 1 times runs its `plugin_initialize` hook
exactly once, every later call being a no-op because the state has left
`registered`. -/
theorem claim_c3_register_idempotent_init_once
    (depsOf : String → List String) (f : Nat) (n : String)
    (r r1 : Reg.RegSt) (i : Nat)
    (hreg : Reg.registerOne depsOf (f + 1) n r = some (r1, i))
    (deps : Nat → List Nat) (g p : Nat) (s s1 : Lifecycle.St)
    (hp : s.pstate p = PState.registered)
    (hcount : s.trace.count (Ev.hook p) = 0)
    (hinit : Lifecycle.initOne deps (g + 1) p s = some s1) :
    (∀ k, Reg.registerN depsOf (f + 1) n k r = some (r1, i)) ∧
    s1.trace.count (Ev.hook p) = 1 ∧
    (∀ m, Lifecycle.initN deps (g + 1) p m s = some s1) := by
  obtain ⟨hnr, hc⟩ := Lifecycle.initOne_count_once deps g p s s1 hinit hp
  refine ⟨fun k => Reg.registerN_stable depsOf f n r1 i k r hreg,
    by rw [hc, hcount], ?_⟩
  intro m
  cases m with
  | zero => exact hinit
  | succ m =>
    simp only [Lifecycle.initN]
    rw [hinit]
    exact Lifecycle.initN_noop deps g p s1 hnr m

/-- Empty dependency declaration for the C3 witness. -/
def c3DepsOf : String → List String := fun _ => []

/-- Empty registry for the C3 witness. -/
def c3Reg0 : Reg.RegSt := { m := [], next := 0 }

/-- Registry after registering one plugin type. -/
def c3Reg1 : Reg.RegSt := { m := [("chain_plugin", 0)], next := 1 }

/-- State after initializing plugin 1 once. -/
def c3WitnessSt : Lifecycle.St :=
  (Lifecycle.initOne wdeps 2 1 Lifecycle.initialSt).getD Lifecycle.initialSt

/-- Witness for C3: five registrations collapse to one instance, five
`initialize` calls run the hook once. -/
theorem claim_c3_register_idempotent_init_once_witness :
    (Reg.registerOne c3DepsOf 1 "chain_plugin" c3Reg0 = some (c3Reg1, 0) ∧
     Lifecycle.initialSt.pstate 1 = PState.registered ∧
     Lifecycle.initialSt.trace.count (Ev.hook 1) = 0) ∧
    Reg.registerN c3DepsOf 1 "chain_plugin" 4 c3Reg0 = some (c3Reg1, 0) ∧
    c3WitnessSt.trace.count (Ev.hook 1) = 1 ∧
    Lifecycle.initN wdeps 2 1 4 Lifecycle.initialSt = some c3WitnessSt :=
  ⟨⟨rfl, rfl, rfl⟩,
   (claim_c3_register_idempotent_init_once c3DepsOf 0 "chain_plugin" c3Reg0 c3Reg1 0
      rfl wdeps 1 1 Lifecycle.initialSt c3WitnessSt rfl rfl rfl).1 4,
   (claim_c3_register_idempotent_init_once c3DepsOf 0 "chain_plugin" c3Reg0 c3Reg1 0
      rfl wdeps 1 1 Lifecycle.initialSt c3WitnessSt rfl rfl rfl).2.1,
   (claim_c3_register_idempotent_init_once c3DepsOf 0 "chain_plugin" c3Reg0 c3Reg1 0
      rfl wdeps 1 1 Lifecycle.initialSt c3WitnessSt rfl rfl rfl).2.2 4⟩

namespace Startup

/-- Application state for the startup/shutdown phase: per-plugin
lifecycle state, the `initialized_plugins` and `running_plugins`
vectors, the order in which `plugin_shutdown` hooks have been invoked,
and the quiescence flag plus the reactor-stop flag set by `quit()`. -/
structure SSt where
  pstate : Nat → PState
  initialized : List Nat
  running : List Nat
  sdTrace : List Nat
  quiting : Bool
  ioStopped : Bool

section Model

-- `deps p` is plugin `p`'s `plugin_requires` set; `startHook p = none`
-- means `p`'s `plugin_startup` hook returns normally, `some e` means it
-- throws the exception `e`.
variable (deps : Nat → List Nat) (startHook : Nat → Option Nat)

/-- The assignment `_state = started` in `plugin<Impl>::startup`. -/
def setStarted (p : Nat) (s : SSt) : SSt :=
  { s with pstate := fun x => if x = p then PState.started else s.pstate x }

/-- Dependency visitation for startup, threading state and
short-circuiting on a thrown exception (`some e`) or fuel exhaustion. -/
def startupList (g : Nat → SSt → Option (SSt × Option Nat)) :
    List Nat → SSt → Option (SSt × Option Nat)
  | [], s => some (s, none)
  | q :: qs, s =>
    match g q s with
    | none => none
    | some (s1, some e) => some (s1, some e)
    | some (s1, none) => startupList g qs s1

/-- Shallow embedding of `plugin<Impl>::startup` (application.hpp): if
the state is `initialized`, first set `_state = started`, then start
every dependency, then run the plugin's own `plugin_startup` hook — if
it throws, the exception propagates with the state already flipped and
the plugin NOT appended to `running_plugins` — otherwise append it via
`app().plugin_started(*this)`.  Any other state is a no-op. -/
def startupOne : Nat → Nat → SSt → Option (SSt × Option Nat)
  | 0, _, _ => none
  | fuel + 1, p, s =>
    if s.pstate p = PState.initialized then
      match startupList (startupOne fuel) (deps p) (setStarted p s) with
      | none => none
      | some (s2, some e) => some (s2, some e)
      | some (s2, none) =>
        match startHook p with
        | some e => some (s2, some e)
        | none => some ({ s2 with running := s2.running ++ [p] }, none)
    else some (s, none)

/-- The loop of `application::startup` (application.cpp): walk
`initialized_plugins` in order, breaking out when `is_quiting()`,
propagating the first exception. -/
def startupLoop (fuel : Nat) : List Nat → SSt → Option (SSt × Option Nat)
  | [], s => some (s, none)
  | p :: ps, s =>
    if s.quiting then some (s, none)
    else
      match startupOne deps startHook fuel p s with
      | none => none
      | some (s1, some e) => some (s1, some e)
      | some (s1, none) => startupLoop fuel ps s1

end Model

/-- Shallow embedding of `plugin<Impl>::shutdown` as invoked from the
`application::shutdown` loop: if the plugin is `started`, set
`_state = stopped` and run its `plugin_shutdown` hook (recorded in
`sdTrace`); otherwise skip it. -/
def pluginShutdown (s : SSt) (p : Nat) : SSt :=
  if s.pstate p = PState.started then
    { s with pstate := fun x => if x = p then PState.stopped else s.pstate x,
             sdTrace := s.sdTrace ++ [p] }
  else s

/-- Shallow embedding of `application::shutdown` (application.cpp):
iterate `running_plugins` in reverse calling each plugin's `shutdown`,
then clear `running_plugins` and `initialized_plugins` (the erasure from
the name-keyed `plugins` map lives in the registry, which this state
does not carry) and finally `quit()`, which sets the quiescence flag and
stops the reactor. -/
def appShutdown (s : SSt) : SSt :=
  let s1 := s.running.reverse.foldl pluginShutdown s
  { s1 with running := [], initialized := [], quiting := true, ioStopped := true }

/-- Shallow embedding of `application::startup` (application.cpp): run
the startup loop over `initialized_plugins`; if a hook throws, the
`catch(...)` block runs `shutdown()` before re-raising the same
exception to the caller. -/
def appStartup (deps : Nat → List Nat) (startHook : Nat → Option Nat)
    (fuel : Nat) (s : SSt) : Option (SSt × Option Nat) :=
  match startupLoop deps startHook fuel s.initialized s with
  | none => none
  | some (s1, some e) => some (appShutdown s1, some e)
  | some (s1, none) => some (s1, none)

/-- Reachability invariant of the running list: no duplicates, and every
member has completed its startup, hence is in state `started`. -/
def RInv (s : SSt) : Prop :=
  s.running.Nodup ∧ ∀ p ∈ s.running, s.pstate p = PState.started

/-- What one recursive `startup` call guarantees, whether it returns
normally or propagates a hook exception: the running-list invariant is
preserved, `running_plugins` only grows at the back, every new runner
was `initialized` before the call, states only ever move
`initialized → started`, and the shutdown trace, quiescence flag and
`initialized_plugins` are untouched. -/
def SStep (s s1 : SSt) : Prop :=
  (∃ t, s1.running = s.running ++ t) ∧
  (∀ x ∈ s1.running, x ∈ s.running ∨ s.pstate x = PState.initialized) ∧
  (∀ x, s1.pstate x = s.pstate x ∨
    (s.pstate x = PState.initialized ∧ s1.pstate x = PState.started)) ∧
  s1.sdTrace = s.sdTrace ∧ s1.quiting = s.quiting ∧ s1.initialized = s.initialized

theorem sstep_refl (s : SSt) : SStep s s :=
  ⟨⟨[], by simp⟩, fun x hx => Or.inl hx, fun x => Or.inl rfl, rfl, rfl, rfl⟩

theorem sstep_trans {s s1 s2 : SSt} (h1 : SStep s s1) (h2 : SStep s1 s2) :
    SStep s s2 := by
  obtain ⟨⟨t1, ht1⟩, hm1, hp1, hd1, hq1, hi1⟩ := h1
  obtain ⟨⟨t2, ht2⟩, hm2, hp2, hd2, hq2, hi2⟩ := h2
  refine ⟨⟨t1 ++ t2, by simp [ht2, ht1]⟩, ?_, ?_, hd2.trans hd1, hq2.trans hq1,
    hi2.trans hi1⟩
  · intro x hx
    rcases hm2 x hx with hx1 | hx1
    · exact hm1 x hx1
    · rcases hp1 x with hpx | ⟨hpx, hpx1⟩
      · exact Or.inr (hpx ▸ hx1)
      · exact absurd hx1 (by rw [hpx1]; intro h; cases h)
  · intro x
    rcases hp2 x with hpx | ⟨hpx, hpx1⟩
    · rcases hp1 x with hpy | ⟨hpy, hpy1⟩
      · exact Or.inl (hpx.trans hpy)
      · exact Or.inr ⟨hpy, hpx ▸ hpy1⟩
    · rcases hp1 x with hpy | ⟨hpy, hpy1⟩
      · exact Or.inr ⟨hpy ▸ hpx, hpx1⟩
      · exact absurd hpx (by rw [hpy1]; intro h; cases h)

/-- The dependency visitation inherits the step property. -/
theorem startupList_sstep (g : Nat → SSt → Option (SSt × Option Nat))
    (hg : ∀ q s s1 r, g q s = some (s1, r) → RInv s → RInv s1 ∧ SStep s s1) :
    ∀ qs s s1 r, startupList g qs s = some (s1, r) → RInv s →
      RInv s1 ∧ SStep s s1 := by
  intro qs
  induction qs with
  | nil =>
    intro s s1 r h hRI
    simp only [startupList, Option.some.injEq, Prod.mk.injEq] at h
    exact h.1 ▸ ⟨hRI, sstep_refl s⟩
  | cons q qs ih =>
    intro s s1 r h hRI
    simp only [startupList] at h
    cases hgq : g q s with
    | none => rw [hgq] at h; cases h
    | some pr =>
      obtain ⟨smid, rmid⟩ := pr
      rw [hgq] at h
      obtain ⟨hRImid, hSmid⟩ := hg q s smid rmid hgq hRI
      cases rmid with
      | some e =>
        simp only [Option.some.injEq, Prod.mk.injEq] at h
        exact h.1 ▸ ⟨hRImid, hSmid⟩
      | none =>
        obtain ⟨hRI1, hS1⟩ := ih smid s1 r h hRImid
        exact ⟨hRI1, sstep_trans hSmid hS1⟩

/-- `plugin<Impl>::startup` preserves the running-list invariant and
satisfies the step property, including on the exception paths. -/
theorem startupOne_sstep (deps : Nat → List Nat) (startHook : Nat → Option Nat) :
    ∀ fuel q s s1 r, startupOne deps startHook fuel q s = some (s1, r) →
      RInv s → RInv s1 ∧ SStep s s1 := by
  intro fuel
  induction fuel with
  | zero => intro q s s1 r h; cases h
  | succ fuel ih =>
    intro q s s1 r h hRI
    simp only [startupOne] at h
    by_cases hreg : s.pstate q = PState.initialized
    · rw [if_pos hreg] at h
      have hqrun : q ∉ s.running := fun hm => by
        have := hRI.2 q hm
        rw [hreg] at this
        cases this
      have hRIset : RInv (setStarted q s) := by
        refine ⟨hRI.1, ?_⟩
        intro x hx
        have hxq : x ≠ q := fun he => hqrun (he ▸ hx)
        simpa [setStarted, hxq] using hRI.2 x hx
      have hSset : SStep s (setStarted q s) := by
        refine ⟨⟨[], by simp [setStarted]⟩, fun x hx => Or.inl hx, ?_, rfl, rfl, rfl⟩
        intro x
        by_cases hxq : x = q
        · subst hxq
          exact Or.inr ⟨hreg, by simp [setStarted]⟩
        · exact Or.inl (by simp [setStarted, hxq])
      cases hL : startupList (startupOne deps startHook fuel) (deps q) (setStarted q s) with
      | none => rw [hL] at h; cases h
      | some pr =>
        obtain ⟨s2, r2⟩ := pr
        rw [hL] at h
        obtain ⟨hRI2, hS2⟩ := startupList_sstep (startupOne deps startHook fuel)
          (fun a b c d hab => ih a b c d hab) (deps q) (setStarted q s) s2 r2 hL hRIset
        have hSto2 : SStep s s2 := sstep_trans hSset hS2
        cases r2 with
        | some e =>
          simp only [Option.some.injEq, Prod.mk.injEq] at h
          exact h.1 ▸ ⟨hRI2, hSto2⟩
        | none =>
          cases hH : startHook q with
          | some e =>
            rw [hH] at h
            simp only [Option.some.injEq, Prod.mk.injEq] at h
            exact h.1 ▸ ⟨hRI2, hSto2⟩
          | none =>
            rw [hH] at h
            simp only [Option.some.injEq, Prod.mk.injEq] at h
            have hsetq : (setStarted q s).pstate q = PState.started := by
              simp [setStarted]
            have hq2 : s2.pstate q = PState.started := by
              rcases hS2.2.2.1 q with hpq | ⟨_, hpq⟩
              · exact hpq.trans hsetq
              · exact hpq
            have hq2run : q ∉ s2.running := by
              intro hm
              rcases hS2.2.1 q hm with hm1 | hm1
              · exact hqrun (by simpa [setStarted] using hm1)
              · rw [hsetq] at hm1
                cases hm1
            have hRI1 : RInv { s2 with running := s2.running ++ [q] } := by
              constructor
              · simp only [List.nodup_append, List.nodup_singleton, true_and]
                exact ⟨hRI2.1, by simpa using hq2run⟩
              · intro x hx
                rcases List.mem_append.mp hx with hx | hx
                · exact hRI2.2 x hx
                · have hx : x = q := by simpa using hx
                  exact hx ▸ hq2
            have hS1 : SStep s { s2 with running := s2.running ++ [q] } := by
              obtain ⟨⟨t2, ht2⟩, hmem2, hpst2, hsd2, hqt2, hin2⟩ := hSto2
              refine ⟨⟨t2 ++ [q], by simp [ht2]⟩, ?_, hpst2, hsd2, hqt2, hin2⟩
              intro x hx
              rcases List.mem_append.mp hx with hx | hx
              · exact hmem2 x hx
              · have hx : x = q := by simpa using hx
                exact Or.inr (hx ▸ hreg)
            exact h.1 ▸ ⟨hRI1, hS1⟩
    · rw [if_neg hreg] at h
      simp only [Option.some.injEq, Prod.mk.injEq] at h
      exact h.1 ▸ ⟨hRI, sstep_refl s⟩

/-- The `application::startup` loop preserves the running-list invariant
and the step property, on normal returns, early quiescence exits and
exception propagation alike. -/
theorem startupLoop_sstep (deps : Nat → List Nat) (startHook : Nat → Option Nat)
    (fuel : Nat) :
    ∀ ps s s1 r, startupLoop deps startHook fuel ps s = some (s1, r) →
      RInv s → RInv s1 ∧ SStep s s1 := by
  intro ps
  induction ps with
  | nil =>
    intro s s1 r h hRI
    simp only [startupLoop, Option.some.injEq, Prod.mk.injEq] at h
    exact h.1 ▸ ⟨hRI, sstep_refl s⟩
  | cons p ps ih =>
    intro s s1 r h hRI
    simp only [startupLoop] at h
    by_cases hq : s.quiting
    · rw [if_pos hq] at h
      simp only [Option.some.injEq, Prod.mk.injEq] at h
      exact h.1 ▸ ⟨hRI, sstep_refl s⟩
    · rw [if_neg hq] at h
      cases hgq : startupOne deps startHook fuel p s with
      | none => rw [hgq] at h; cases h
      | some pr =>
        obtain ⟨smid, rmid⟩ := pr
        rw [hgq] at h
        obtain ⟨hRImid, hSmid⟩ := startupOne_sstep deps startHook fuel p s smid rmid hgq hRI
        cases rmid with
        | some e =>
          simp only [Option.some.injEq, Prod.mk.injEq] at h
          exact h.1 ▸ ⟨hRImid, hSmid⟩
        | none =>
          obtain ⟨hRI1, hS1⟩ := ih smid s1 r h hRImid
          exact ⟨hRI1, sstep_trans hSmid hS1⟩

/-- The shutdown loop never touches the state of a plugin outside the
list it walks. -/
theorem fold_pluginShutdown_pstate_of_ne :
    ∀ (l : List Nat) (s : SSt) (x : Nat), x ∉ l →
      (l.foldl pluginShutdown s).pstate x = s.pstate x := by
  intro l
  induction l with
  | nil => intro s x _; rfl
  | cons q l ih =>
    intro s x hx
    have hxq : x ≠ q := fun h => hx (h ▸ List.mem_cons_self _ _)
    have hxl : x ∉ l := fun h => hx (List.mem_cons_of_mem _ h)
    rw [List.foldl_cons, ih _ x hxl]
    unfold pluginShutdown
    by_cases hq : s.pstate q = PState.started
    · simp [hq, hxq]
    · simp [hq]

/-- The shutdown loop invokes exactly the hooks of the walked plugins
that are in state `started`, in walk order, skipping the rest. -/
theorem fold_pluginShutdown_trace :
    ∀ (l : List Nat) (s : SSt), l.Nodup →
      (l.foldl pluginShutdown s).sdTrace
        = s.sdTrace ++ l.filter (fun p => decide (s.pstate p = PState.started)) := by
  intro l
  induction l with
  | nil => intro s _; simp
  | cons q l ih =>
    intro s hnd
    have hql : q ∉ l := (List.nodup_cons.mp hnd).1
    have hndl : l.Nodup := (List.nodup_cons.mp hnd).2
    rw [List.foldl_cons]
    by_cases hq : s.pstate q = PState.started
    · have hstep : pluginShutdown s q
          = { s with pstate := fun x => if x = q then PState.stopped else s.pstate x,
                     sdTrace := s.sdTrace ++ [q] } := by
        simp [pluginShutdown, hq]
      rw [hstep, ih _ hndl]
      have hcong : ∀ p ∈ l,
          (decide ((if p = q then PState.stopped else s.pstate p) = PState.started))
            = decide (s.pstate p = PState.started) := by
        intro p hp
        have hpq : p ≠ q := fun h => hql (h ▸ hp)
        simp [hpq]
      rw [List.filter_congr hcong]
      simp [List.filter_cons, hq]
    · have hstep : pluginShutdown s q = s := by
        simp [pluginShutdown, hq]
      rw [hstep, ih _ hndl]
      simp [List.filter_cons, hq]

/-- After the shutdown loop, every walked plugin that was `started` or
already `stopped` is `stopped`. -/
theorem fold_pluginShutdown_stopped :
    ∀ (l : List Nat) (s : SSt) (p : Nat), l.Nodup → p ∈ l →
      (s.pstate p = PState.started ∨ s.pstate p = PState.stopped) →
      (l.foldl pluginShutdown s).pstate p = PState.stopped := by
  intro l
  induction l with
  | nil => intro s p _ hp; cases hp
  | cons q l ih =>
    intro s p hnd hp hst
    have hql : q ∉ l := (List.nodup_cons.mp hnd).1
    have hndl : l.Nodup := (List.nodup_cons.mp hnd).2
    rw [List.foldl_cons]
    rcases List.mem_cons.mp hp with rfl | hpl
    · have hstopped : (pluginShutdown s p).pstate p = PState.stopped := by
        unfold pluginShutdown
        rcases hst with hst | hst
        · simp [hst]
        · simp only [if_neg (by simp [hst] : ¬s.pstate p = PState.started)]
          exact hst
      rw [fold_pluginShutdown_pstate_of_ne l _ p hql, hstopped]
    · have hpq : p ≠ q := fun h => hql (h ▸ hpl)
      have hpres : (pluginShutdown s q).pstate p = s.pstate p := by
        unfold pluginShutdown
        by_cases hq : s.pstate q = PState.started
        · simp [hq, hpq]
        · simp [hq]
      exact ih _ p hndl hpl (hpres ▸ hst)

end Startup

/-- Claim C2: `application::shutdown` invokes each started plugin's
`plugin_shutdown` hook in the exact reverse of the order recorded in
`running_plugins` (the startup completion order), skipping plugins whose
state is no longer `started`; afterwards every running plugin is
`stopped`, both order vectors are cleared, and `quit()` has set the
quiescence flag and stopped the reactor. -/
theorem claim_c2_shutdown_reverse_order (s : Startup.SSt)
    (hnd : s.running.Nodup)
    (hst : ∀ p ∈ s.running,
      s.pstate p = PState.started ∨ s.pstate p = PState.stopped) :
    (Startup.appShutdown s).sdTrace
      = s.sdTrace ++ s.running.reverse.filter
          (fun p => decide (s.pstate p = PState.started)) ∧
    (∀ p ∈ s.running, (Startup.appShutdown s).pstate p = PState.stopped) ∧
    (Startup.appShutdown s).running = [] ∧
    (Startup.appShutdown s).initialized = [] ∧
    (Startup.appShutdown s).quiting = true ∧
    (Startup.appShutdown s).ioStopped = true := by
  have hndr : s.running.reverse.Nodup := List.nodup_reverse.mpr hnd
  refine ⟨?_, ?_, rfl, rfl, rfl, rfl⟩
  · exact Startup.fold_pluginShutdown_trace s.running.reverse s hndr
  · intro p hp
    exact Startup.fold_pluginShutdown_stopped s.running.reverse s p hndr
      (List.mem_reverse.mpr hp) (hst p hp)

/-- A state with one started and one already-stopped plugin, started in
the order 1 then 2. -/
def c2WitnessSt : Startup.SSt :=
  { pstate := fun x => if x = 1 then PState.started
      else if x = 2 then PState.stopped else PState.registered,
    initialized := [1, 2], running := [1, 2], sdTrace := [],
    quiting := false, ioStopped := false }

/-- Witness for C2: the stopped plugin 2 is skipped and plugin 1's hook
runs; the surviving hook order is the reverse of the startup order
restricted to started plugins. -/
theorem claim_c2_shutdown_reverse_order_witness :
    (c2WitnessSt.running.Nodup ∧
     ∀ p ∈ c2WitnessSt.running,
       c2WitnessSt.pstate p = PState.started ∨
       c2WitnessSt.pstate p = PState.stopped) ∧
    (Startup.appShutdown c2WitnessSt).sdTrace
      = c2WitnessSt.sdTrace ++ c2WitnessSt.running.reverse.filter
          (fun p => decide (c2WitnessSt.pstate p = PState.started)) ∧
    (Startup.appShutdown c2WitnessSt).pstate 1 = PState.stopped ∧
    (Startup.appShutdown c2WitnessSt).pstate 2 = PState.stopped ∧
    (Startup.appShutdown c2WitnessSt).running = [] ∧
    (Startup.appShutdown c2WitnessSt).quiting = true :=
  ⟨⟨by decide, by decide⟩,
   (claim_c2_shutdown_reverse_order c2WitnessSt (by decide) (by decide)).1,
   (claim_c2_shutdown_reverse_order c2WitnessSt (by decide) (by decide)).2.1 1 (by decide),
   (claim_c2_shutdown_reverse_order c2WitnessSt (by decide) (by decide)).2.1 2 (by decide),
   (claim_c2_shutdown_reverse_order c2WitnessSt (by decide) (by decide)).2.2.1,
   (claim_c2_shutdown_reverse_order c2WitnessSt (by decide) (by decide)).2.2.2.2.1⟩

/-- Claim C5: if a `plugin_startup` hook throws during
`application::startup`, the `catch(...)` block runs `shutdown()` —
stopping every plugin that had completed startup, in reverse completion
order — and then re-raises the original exception unchanged: `startup`
returns exactly the thrown value `e`, and the state it leaves behind
already carries the effects of the shutdown. -/
theorem claim_c5_startup_exception_shutdown
    (deps : Nat → List Nat) (startHook : Nat → Option Nat) (fuel : Nat)
    (s s1 : Startup.SSt) (e : Nat) (hRI : Startup.RInv s)
    (hloop : Startup.startupLoop deps startHook fuel s.initialized s
      = some (s1, some e)) :
    Startup.appStartup deps startHook fuel s
      = some (Startup.appShutdown s1, some e) ∧
    (Startup.appShutdown s1).sdTrace = s.sdTrace ++ s1.running.reverse ∧
    (∀ p ∈ s1.running, (Startup.appShutdown s1).pstate p = PState.stopped) ∧
    (Startup.appShutdown s1).quiting = true ∧
    (Startup.appShutdown s1).ioStopped = true := by
  obtain ⟨hRI1, hS1⟩ :=
    Startup.startupLoop_sstep deps startHook fuel s.initialized s s1 (some e) hloop hRI
  have hndr : s1.running.reverse.Nodup := List.nodup_reverse.mpr hRI1.1
  refine ⟨?_, ?_, ?_, rfl, rfl⟩
  · unfold Startup.appStartup
    rw [hloop]
  · have htr := Startup.fold_pluginShutdown_trace s1.running.reverse s1 hndr
    have hfull : s1.running.reverse.filter
        (fun p => decide (s1.pstate p = PState.started)) = s1.running.reverse := by
      apply List.filter_eq_self.mpr
      intro p hp
      simp [hRI1.2 p (List.mem_reverse.mp hp)]
    have hsd : s1.sdTrace = s.sdTrace := hS1.2.2.2.1
    calc (Startup.appShutdown s1).sdTrace
        = s1.sdTrace ++ s1.running.reverse.filter
            (fun p => decide (s1.pstate p = PState.started)) := htr
      _ = s.sdTrace ++ s1.running.reverse := by rw [hfull, hsd]
  · intro p hp
    exact Startup.fold_pluginShutdown_stopped s1.running.reverse s1 p hndr
      (List.mem_reverse.mpr hp) (Or.inl (hRI1.2 p hp))

/-- Dependency-free plugins for the C5 witness. -/
def c5Deps : Nat → List Nat := fun _ => []

/-- Plugin 2's startup hook throws the exception 7; plugin 1
succeeds. -/
def c5Hook : Nat → Option Nat := fun p => if p = 2 then some 7 else none

/-- Initial state for the C5 witness: plugins 1 and 2 initialized in
that order, nothing running. -/
def c5St0 : Startup.SSt :=
  { pstate := fun x => if x = 1 ∨ x = 2 then PState.initialized else PState.registered,
    initialized := [1, 2], running := [], sdTrace := [],
    quiting := false, ioStopped := false }

/-- The state in which the startup loop propagates the exception. -/
def c5Mid : Startup.SSt × Option Nat :=
  (Startup.startupLoop c5Deps c5Hook 2 c5St0.initialized c5St0).getD (c5St0, none)

/-- Witness for C5: plugin 2's hook throws 7 after plugin 1 started;
`startup` shuts plugin 1 down and returns the exception 7 unchanged. -/
theorem claim_c5_startup_exception_shutdown_witness :
    (Startup.RInv c5St0 ∧
     Startup.startupLoop c5Deps c5Hook 2 c5St0.initialized c5St0
       = some (c5Mid.1, some 7)) ∧
    Startup.appStartup c5Deps c5Hook 2 c5St0
      = some (Startup.appShutdown c5Mid.1, some 7) ∧
    (Startup.appShutdown c5Mid.1).sdTrace = c5St0.sdTrace ++ c5Mid.1.running.reverse ∧
    (Startup.appShutdown c5Mid.1).pstate 1 = PState.stopped ∧
    (Startup.appShutdown c5Mid.1).quiting = true :=
  ⟨⟨⟨by decide, by decide⟩, rfl⟩,
   (claim_c5_startup_exception_shutdown c5Deps c5Hook 2 c5St0 c5Mid.1 7
      ⟨by decide, by decide⟩ rfl).1,
   (claim_c5_startup_exception_shutdown c5Deps c5Hook 2 c5St0 c5Mid.1 7
      ⟨by decide, by decide⟩ rfl).2.1,
   (claim_c5_startup_exception_shutdown c5Deps c5Hook 2 c5St0 c5Mid.1 7
      ⟨by decide, by decide⟩ rfl).2.2.1 1 (by decide),
   (claim_c5_startup_exception_shutdown c5Deps c5Hook 2 c5St0 c5Mid.1 7
      ⟨by decide, by decide⟩ rfl).2.2.2.1⟩

namespace PluginSd

/-- Shallow embedding of `plugin<Impl>::shutdown` (application.hpp) for
a single plugin, with the hook outcome explicit: when the state is
`started`, the code assigns `_state = stopped` FIRST and only then
invokes `plugin_shutdown`, whose outcome (normal return `.ok` or thrown
exception `.error e`) propagates to the caller; because the assignment
precedes the call, the resulting state component is `stopped` no matter
what the hook does.  In any other state nothing runs.  The result is
(new state, number of hook invocations, hook outcome). -/
def pluginShutdownHk (hook : Except Nat Unit) (st : PState) :
    PState × Nat × Except Nat Unit :=
  if st = PState.started then (PState.stopped, 1, hook)
  else (st, 0, Except.ok ())

end PluginSd

/-- Claim C10: shutting down a `started` plugin flips its state to
`stopped` before the `plugin_shutdown` hook runs, so the state is
`stopped` even when the hook throws (`r = .error e`); consequently a
second `shutdown` call finds the state `stopped` and invokes no hook —
the hook can never run twice. -/
theorem claim_c10_stop_before_hook :
    ∀ r r2 : Except Nat Unit,
      (PluginSd.pluginShutdownHk r PState.started).1 = PState.stopped ∧
      (PluginSd.pluginShutdownHk r PState.started).2.1 = 1 ∧
      (PluginSd.pluginShutdownHk r PState.started).2.2 = r ∧
      PluginSd.pluginShutdownHk r2 (PluginSd.pluginShutdownHk r PState.started).1
        = (PState.stopped, 0, Except.ok ()) :=
  fun _ _ => ⟨rfl, rfl, rfl, rfl⟩

namespace Sched

/-- A scheduler task: `{priority, sequence, callable}` (spec §3); the
payload `α` stands for the wrapped callable. -/
structure Task (α : Type) where
  priority : Int
  seq : Nat
  act : α
deriving DecidableEq

variable {α : Type} [DecidableEq α]

/-- Modelled from the spec: the dispatch order of the execution priority
queue (`execution_priority_queue.hpp` is not under src/).  Spec §3:
tasks are ordered by priority descending, then sequence ascending
(stable FIFO within a priority tier); larger integers run first.
`taskBefore a b` says `a` is dispatched no later than `b`. -/
def taskBefore (a b : Task α) : Bool :=
  if a.priority = b.priority then decide (a.seq ≤ b.seq)
  else decide (b.priority < a.priority)

/-- Select the best of `t` and the members of the list under
`taskBefore`. -/
def pickBest (t : Task α) : List (Task α) → Task α
  | [] => t
  | x :: xs => if taskBefore t x then pickBest t xs else pickBest x xs

/-- Modelled from the spec: `execute_highest()` pops the single pending
task with the numerically greatest priority, ties broken by the
earliest sequence number; the popped task and the remaining queue are
returned (`none` when nothing is pending). -/
def executeHighest : List (Task α) → Option (Task α × List (Task α))
  | [] => none
  | t :: ts => some (pickBest t ts, (t :: ts).erase (pickBest t ts))

/-- Repeated dispatch: the order in which a pending set is executed when
no new tasks arrive. -/
def drain : Nat → List (Task α) → List (Task α)
  | 0, _ => []
  | fuel + 1, q =>
    match executeHighest q with
    | none => []
    | some (t, rest) => t :: drain fuel rest

omit [DecidableEq α] in
theorem taskBefore_refl (a : Task α) : taskBefore a a = true := by
  simp [taskBefore]

omit [DecidableEq α] in
theorem taskBefore_total (a b : Task α) :
    taskBefore a b = true ∨ taskBefore b a = true := by
  unfold taskBefore
  by_cases h : a.priority = b.priority
  · rw [if_pos h, if_pos h.symm]
    simp only [decide_eq_true_eq]
    omega
  · have h2 : ¬b.priority = a.priority := fun he => h he.symm
    rw [if_neg h, if_neg h2]
    simp only [decide_eq_true_eq]
    rcases Int.lt_or_lt_of_ne h with hlt | hlt
    · exact Or.inr hlt
    · exact Or.inl hlt

omit [DecidableEq α] in
theorem taskBefore_trans {a b c : Task α} (h1 : taskBefore a b = true)
    (h2 : taskBefore b c = true) : taskBefore a c = true := by
  unfold taskBefore at h1 h2 ⊢
  by_cases hab : a.priority = b.priority
  · rw [if_pos hab] at h1
    by_cases hbc : b.priority = c.priority
    · rw [if_pos hbc] at h2
      rw [if_pos (hab.trans hbc)]
      simp only [decide_eq_true_eq] at h1 h2 ⊢
      omega
    · rw [if_neg hbc] at h2
      have hac : ¬a.priority = c.priority := fun he => hbc (hab.symm.trans he)
      rw [if_neg hac, hab]
      exact h2
  · rw [if_neg hab] at h1
    by_cases hbc : b.priority = c.priority
    · rw [if_pos hbc] at h2
      have hac : ¬a.priority = c.priority := fun he => hab (he.trans hbc.symm)
      rw [if_neg hac, ← hbc]
      exact h1
    · rw [if_neg hbc] at h2
      simp only [decide_eq_true_eq] at h1 h2
      have hlt : c.priority < a.priority := lt_trans h2 h1
      by_cases hac : a.priority = c.priority
      · exfalso
        omega
      · rw [if_neg hac]
        simpa using hlt

omit [DecidableEq α] in
theorem pickBest_mem (t : Task α) (ts : List (Task α)) :
    pickBest t ts = t ∨ pickBest t ts ∈ ts := by
  induction ts generalizing t with
  | nil => exact Or.inl rfl
  | cons x xs ih =>
    unfold pickBest
    cases hb : taskBefore t x with
    | true =>
      simp only [hb, if_true]
      rcases ih t with h1 | h1
      · exact Or.inl h1
      · exact Or.inr (List.mem_cons_of_mem _ h1)
    | false =>
      simp only [hb, Bool.false_eq_true, if_false]
      rcases ih x with h1 | h1
      · refine Or.inr ?_
        rw [h1]
        exact List.mem_cons_self _ _
      · exact Or.inr (List.mem_cons_of_mem _ h1)

omit [DecidableEq α] in
theorem pickBest_before (t : Task α) (ts : List (Task α)) :
    taskBefore (pickBest t ts) t = true ∧
    ∀ x ∈ ts, taskBefore (pickBest t ts) x = true := by
  induction ts generalizing t with
  | nil => exact ⟨taskBefore_refl t, by simp⟩
  | cons x xs ih =>
    unfold pickBest
    cases hb : taskBefore t x with
    | true =>
      simp only [hb, if_true]
      obtain ⟨ihr, ihall⟩ := ih t
      refine ⟨ihr, ?_⟩
      intro y hy
      rcases List.mem_cons.mp hy with rfl | hy
      · exact taskBefore_trans ihr hb
      · exact ihall y hy
    | false =>
      simp only [hb, Bool.false_eq_true, if_false]
      obtain ⟨ihr, ihall⟩ := ih x
      have hxt : taskBefore x t = true := by
        rcases taskBefore_total t x with h | h
        · rw [h] at hb; cases hb
        · exact h
      refine ⟨taskBefore_trans ihr hxt, ?_⟩
      intro y hy
      rcases List.mem_cons.mp hy with rfl | hy
      · exact ihr
      · exact ihall y hy

theorem executeHighest_spec (q : List (Task α)) (t : Task α) (rest : List (Task α))
    (h : executeHighest q = some (t, rest)) :
    t ∈ q ∧ rest = q.erase t ∧ ∀ x ∈ q, taskBefore t x = true := by
  cases q with
  | nil => cases h
  | cons a as =>
    simp only [executeHighest, Option.some.injEq, Prod.mk.injEq] at h
    obtain ⟨rfl, rfl⟩ := h
    have hmem : pickBest a as ∈ a :: as := by
      rcases pickBest_mem a as with h1 | h1
      · rw [h1]
        exact List.mem_cons_self _ _
      · exact List.mem_cons_of_mem _ h1
    obtain ⟨hba, hball⟩ := pickBest_before a as
    refine ⟨hmem, rfl, ?_⟩
    intro x hx
    rcases List.mem_cons.mp hx with rfl | hx
    · exact hba
    · exact hball x hx

theorem drain_perm : ∀ (fuel : Nat) (q : List (Task α)), q.length ≤ fuel →
    (drain fuel q).Perm q := by
  intro fuel
  induction fuel with
  | zero =>
    intro q h
    have hq : q = [] := List.eq_nil_of_length_eq_zero (Nat.le_zero.mp h)
    simp [hq, drain]
  | succ fuel ih =>
    intro q h
    cases hE : executeHighest q with
    | none =>
      cases q with
      | nil => simp [drain, hE]
      | cons a as => cases hE
    | some pr =>
      obtain ⟨t, rest⟩ := pr
      obtain ⟨hmem, hrest, _⟩ := executeHighest_spec q t rest hE
      simp only [drain, hE]
      have hlen : rest.length ≤ fuel := by
        rw [hrest, List.length_erase_of_mem hmem]
        have := List.length_pos.mpr (List.ne_nil_of_mem hmem)
        omega
      exact ((ih rest hlen).cons t).trans (hrest ▸ (List.perm_cons_erase hmem)).symm

theorem drain_sorted : ∀ (fuel : Nat) (q : List (Task α)), q.length ≤ fuel →
    List.Pairwise (fun a b => taskBefore a b = true) (drain fuel q) := by
  intro fuel
  induction fuel with
  | zero => intro q h; simp [drain]
  | succ fuel ih =>
    intro q h
    cases hE : executeHighest q with
    | none => simp [drain, hE]
    | some pr =>
      obtain ⟨t, rest⟩ := pr
      obtain ⟨hmem, hrest, hall⟩ := executeHighest_spec q t rest hE
      simp only [drain, hE]
      have hlen : rest.length ≤ fuel := by
        rw [hrest, List.length_erase_of_mem hmem]
        have := List.length_pos.mpr (List.ne_nil_of_mem hmem)
        omega
      refine List.Pairwise.cons ?_ (ih rest hlen)
      intro y hy
      have hyrest : y ∈ rest := (drain_perm fuel rest hlen).subset hy
      have hyq : y ∈ q := by
        rw [hrest] at hyrest
        exact List.erase_subset _ _ hyrest
      exact hall y hyq

end Sched

/-- In a list sorted by a relation, an element that strictly precedes
another (the relation fails in the reverse direction) has the smaller
first index. -/
theorem pairwise_indexOf_lt {β : Type} [DecidableEq β] (R : β → β → Prop)
    (l : List β) (hp : List.Pairwise R l) (a b : β) (ha : a ∈ l) (hb : b ∈ l)
    (hne : a ≠ b) (hnb : ¬R b a) : l.indexOf a < l.indexOf b := by
  have hla : l.indexOf a < l.length := List.indexOf_lt_length.mpr ha
  have hlb : l.indexOf b < l.length := List.indexOf_lt_length.mpr hb
  have hga : l.get ⟨l.indexOf a, hla⟩ = a := List.indexOf_get _
  have hgb : l.get ⟨l.indexOf b, hlb⟩ = b := List.indexOf_get _
  rcases Nat.lt_trichotomy (l.indexOf a) (l.indexOf b) with h | h | h
  · exact h
  · exfalso
    apply hne
    rw [← hga, ← hgb]
    congr 1
    exact Fin.ext h
  · exfalso
    have hR := List.pairwise_iff_get.mp hp ⟨l.indexOf b, hlb⟩ ⟨l.indexOf a, hla⟩ h
    rw [hga, hgb] at hR
    exact hnb hR

/-- Claim C4: at every dispatch decision the scheduler pops a pending
task that is ahead of every other pending task under the
priority-descending, sequence-ascending order; hence over a full drain
of a pending set, a task with strictly greater priority runs before any
lower-priority task regardless of posting order, and of two
equal-priority tasks the one with the smaller sequence number (posted
earlier) runs first. -/
theorem claim_c4_priority_then_fifo
    (q : List (Sched.Task Unit)) (t1 t2 : Sched.Task Unit)
    (h1 : t1 ∈ q) (h2 : t2 ∈ q)
    (hkey : t2.priority < t1.priority ∨
      (t1.priority = t2.priority ∧ t1.seq < t2.seq)) :
    (∀ t rest, Sched.executeHighest q = some (t, rest) →
      t ∈ q ∧ ∀ x ∈ q, Sched.taskBefore t x = true) ∧
    t1 ∈ Sched.drain q.length q ∧ t2 ∈ Sched.drain q.length q ∧
    (Sched.drain q.length q).indexOf t1 < (Sched.drain q.length q).indexOf t2 := by
  have hperm := Sched.drain_perm q.length q (le_refl _)
  have hsorted := Sched.drain_sorted q.length q (le_refl _)
  have hnb : ¬Sched.taskBefore t2 t1 = true := by
    unfold Sched.taskBefore
    rcases hkey with hk | ⟨hk1, hk2⟩
    · have hne2 : ¬t2.priority = t1.priority := by omega
      rw [if_neg hne2]
      simp only [decide_eq_true_eq]
      omega
    · rw [if_pos hk1.symm]
      simp only [decide_eq_true_eq]
      omega
  have hne : t1 ≠ t2 := by
    intro he
    apply hnb
    rw [he]
    exact Sched.taskBefore_refl t2
  refine ⟨?_, hperm.mem_iff.mpr h1, hperm.mem_iff.mpr h2, ?_⟩
  · intro t rest hE
    obtain ⟨hm, _, hall⟩ := Sched.executeHighest_spec q t rest hE
    exact ⟨hm, hall⟩
  · exact pairwise_indexOf_lt _ _ hsorted t1 t2 (hperm.mem_iff.mpr h1)
      (hperm.mem_iff.mpr h2) hne hnb

/-- A concrete pending set: a low-priority task posted first, then two
priority-5 tasks in posting order. -/
def c4Queue : List (Sched.Task Unit) := [⟨1, 0, ()⟩, ⟨5, 1, ()⟩, ⟨5, 2, ()⟩]

/-- Witness for C4 on `c4Queue`: the first dispatch decision picks the
earliest priority-5 task over everything pending, the higher-priority
task runs before the earlier-posted low-priority one, and the two
priority-5 tasks run in posting order. -/
theorem claim_c4_priority_then_fifo_witness :
    ((⟨5, 1, ()⟩ : Sched.Task Unit) ∈ c4Queue ∧
     (⟨1, 0, ()⟩ : Sched.Task Unit) ∈ c4Queue ∧
     (⟨5, 2, ()⟩ : Sched.Task Unit) ∈ c4Queue ∧
     (1 : Int) < 5 ∧ (1 : Nat) < 2) ∧
    Sched.taskBefore (⟨5, 1, ()⟩ : Sched.Task Unit) ⟨1, 0, ()⟩ = true ∧
    (Sched.drain c4Queue.length c4Queue).indexOf ⟨5, 1, ()⟩
      < (Sched.drain c4Queue.length c4Queue).indexOf ⟨1, 0, ()⟩ ∧
    (Sched.drain c4Queue.length c4Queue).indexOf ⟨5, 1, ()⟩
      < (Sched.drain c4Queue.length c4Queue).indexOf ⟨5, 2, ()⟩ :=
  ⟨⟨by decide, by decide, by decide, by decide, by decide⟩,
   ((claim_c4_priority_then_fifo c4Queue ⟨5, 1, ()⟩ ⟨1, 0, ()⟩ (by decide) (by decide)
       (Or.inl (by decide))).1 ⟨5, 1, ()⟩ [⟨1, 0, ()⟩, ⟨5, 2, ()⟩] rfl).2
     ⟨1, 0, ()⟩ (by decide),
   (claim_c4_priority_then_fifo c4Queue ⟨5, 1, ()⟩ ⟨1, 0, ()⟩ (by decide) (by decide)
       (Or.inl (by decide))).2.2.2,
   (claim_c4_priority_then_fifo c4Queue ⟨5, 1, ()⟩ ⟨5, 2, ()⟩ (by decide) (by decide)
       (Or.inr (by decide))).2.2.2⟩

namespace Exec

/-- What a queued callable does when dispatched: nothing, or call
`application::quit()`.  These are the behaviours the quiescence claim
exercises; tasks in this model do not post further tasks. -/
inductive TAct where
  | noop
  | callQuit
deriving DecidableEq

/-- State of `application::exec` and its collaborators: the
`running_plugins` list (only its emptiness matters here), the pending
set of the execution priority queue, the reactor's ready handlers not
yet delivered into the priority queue, the quiescence flag and the
reactor-stopped flag, a counter of completed `application::shutdown`
calls, and whether `io_serv.reset()` has run. -/
structure XSt where
  running : List Nat
  queue : List (Sched.Task TAct)
  ioEvents : List (Sched.Task TAct)
  quiting : Bool
  ioStopped : Bool
  sdRuns : Nat
  ioDead : Bool
deriving DecidableEq

/-- Shallow embedding of `application::quit` (application.cpp): set the
atomic quiescence flag and stop the reactor. -/
def quitOp (s : XSt) : XSt :=
  { s with quiting := true, ioStopped := true }

/-- Run a dispatched task's callable. -/
def applyAct : TAct → XSt → XSt
  | TAct.noop, s => s
  | TAct.callQuit, s => quitOp s

/-- The inner `while(io_serv->poll_one()){}` of `application::exec`:
deliver every immediately-ready reactor handler into the priority queue;
a stopped reactor delivers nothing. -/
def pollAll (s : XSt) : XSt :=
  if s.ioStopped then s
  else { s with queue := s.queue ++ s.ioEvents, ioEvents := [] }

/-- `pri_queue.execute_highest()` acting on the state: pop the best
pending task (spec order), run it, and report whether tasks remain. -/
def execHighest (s : XSt) : Bool × XSt :=
  match Sched.executeHighest s.queue with
  | none => (false, s)
  | some (t, rest) => (!rest.isEmpty, applyAct t.act { s with queue := rest })

/-- The `while( more || io_serv->run_one() )` loop of
`application::exec`.  `run_one()` on a stopped reactor returns zero
immediately, ending the loop; on a running reactor it executes one ready
handler (delivering it to the priority queue) or — because of the work
guard — blocks forever when none is ready, which the model renders as
`none` (no terminating execution).  `none` also covers fuel
exhaustion. -/
def execLoop : Nat → Bool → XSt → Option XSt
  | 0, _, _ => none
  | fuel + 1, more, s =>
    if more then
      let s1 := pollAll s
      let step := execHighest s1
      execLoop fuel step.1 step.2
    else
      if s.ioStopped then some s
      else
        match s.ioEvents with
        | [] => none
        | e :: es =>
          let s1 := pollAll { s with queue := s.queue ++ [e], ioEvents := es }
          let step := execHighest s1
          execLoop fuel step.1 step.2

/-- The effect of the synchronous `shutdown()` call at the end of
`exec` on this state: one more completed shutdown, the running list
cleared, and `quit()` run at its end (the per-plugin hook effects live
in the startup/shutdown model). -/
def appShutdownX (s : XSt) : XSt :=
  { quitOp s with sdRuns := s.sdRuns + 1, running := [] }

/-- Shallow embedding of `application::exec` (application.cpp): when no
plugin is running, only `io_serv.reset()` happens; otherwise the loop
drains the reactor and the priority queue and then runs `shutdown()`
exactly once, synchronously, before returning. -/
def execX (s : XSt) : Option XSt :=
  if s.running.isEmpty then some { s with ioDead := true }
  else
    match execLoop (s.queue.length + 2) true s with
    | none => none
    | some s1 => some { appShutdownX s1 with ioDead := true }

/-- On a stopped reactor the loop terminates: it drains the priority
queue and exits, preserving the running list and the shutdown counter,
and keeping the quiescence flag once set.  The side condition `hmq`
reflects the loop structure: `more` is false only when the previous
`execute_highest` reported an empty queue. -/
theorem execLoop_stopped :
    ∀ fuel (s : XSt) (more : Bool), s.ioStopped = true →
      (more = false → s.queue = []) →
      s.queue.length + 2 ≤ fuel + (if more then 0 else 1) →
      ∃ s1, execLoop fuel more s = some s1 ∧ s1.queue = [] ∧
        s1.ioStopped = true ∧ s1.running = s.running ∧
        s1.sdRuns = s.sdRuns ∧ (s.quiting = true → s1.quiting = true) := by
  intro fuel
  induction fuel with
  | zero =>
    intro s more hio hmq hlen
    exfalso
    cases more <;> simp at hlen
  | succ fuel ih =>
    intro s more hio hmq hlen
    cases more with
    | false =>
      refine ⟨s, ?_, hmq rfl, hio, rfl, rfl, fun h => h⟩
      simp [execLoop, hio]
    | true =>
      have hloop : execLoop (fuel + 1) true s
          = execLoop fuel (execHighest s).1 (execHighest s).2 := by
        simp [execLoop, pollAll, hio]
      rw [hloop]
      simp only [if_true] at hlen
      cases hq : s.queue with
      | nil =>
        have hstep : execHighest s = (false, s) := by
          have hE : Sched.executeHighest s.queue = none := by rw [hq]; rfl
          simp [execHighest, hE]
        rw [hstep]
        apply ih s false hio (fun _ => hq)
        simp [hq]
        omega
      | cons t ts =>
        have hne : s.queue ≠ [] := by rw [hq]; intro h; cases h
        cases hE : Sched.executeHighest s.queue with
        | none => rw [hq] at hE; cases hE
        | some pr =>
          obtain ⟨t0, rest⟩ := pr
          obtain ⟨hm, hr, _⟩ := Sched.executeHighest_spec s.queue t0 rest hE
          have hstep : execHighest s
              = (!rest.isEmpty, applyAct t0.act { s with queue := rest }) := by
            simp [execHighest, hE]
          rw [hstep]
          have hrl : rest.length + 1 = s.queue.length := by
            rw [hr, List.length_erase_of_mem hm]
            have := List.length_pos.mpr hne
            omega
          have hioA : (applyAct t0.act { s with queue := rest }).ioStopped = true := by
            cases t0.act <;> simp [applyAct, quitOp, hio]
          have hqA : (applyAct t0.act { s with queue := rest }).queue = rest := by
            cases t0.act <;> simp [applyAct, quitOp]
          have hrunA : (applyAct t0.act { s with queue := rest }).running = s.running := by
            cases t0.act <;> simp [applyAct, quitOp]
          have hsdA : (applyAct t0.act { s with queue := rest }).sdRuns = s.sdRuns := by
            cases t0.act <;> simp [applyAct, quitOp]
          have hquA : s.quiting = true →
              (applyAct t0.act { s with queue := rest }).quiting = true := by
            cases t0.act <;> simp [applyAct, quitOp]
          have hmqA : (!rest.isEmpty) = false →
              (applyAct t0.act { s with queue := rest }).queue = [] := by
            intro hmore
            rw [hqA]
            simpa using hmore
          obtain ⟨s1, he1, hq1, hio1, hrun1, hsd1, hqu1⟩ :=
            ih (applyAct t0.act { s with queue := rest }) (!rest.isEmpty) hioA hmqA
              (by
                rw [hqA]
                cases hrest : rest.isEmpty with
                | true =>
                  have : rest = [] := by simpa using hrest
                  simp [this]
                  omega
                | false =>
                  simp
                  omega)
          exact ⟨s1, he1, hq1, hio1, hrun1.trans hrunA, hsd1.trans hsdA,
            fun h => hqu1 (hquA h)⟩

/-- `n` successive `quit()` calls. -/
def quitIter : Nat → XSt → XSt
  | 0, s => s
  | n + 1, s => quitOp (quitIter n s)

/-- `quit()` touches only the two flags. -/
theorem quitIter_fields : ∀ (n : Nat) (s : XSt),
    (quitIter n s).running = s.running ∧ (quitIter n s).queue = s.queue ∧
    (quitIter n s).sdRuns = s.sdRuns := by
  intro n s
  induction n with
  | zero => exact ⟨rfl, rfl, rfl⟩
  | succ n ih => exact ⟨ih.1, ih.2.1, ih.2.2⟩

end Exec

/-- Claim C6 (amended): any positive number of `quit()` calls — before
`exec()`, more than once, idempotently — leaves the quiescence flag set
(and it stays set: a further `quit()` is the identity on this state) and
the reactor stopped; `exec()` then returns, running `shutdown()` exactly
once when at least one plugin is running and — correcting the claim —
zero times when none is, never twice. -/
theorem claim_c6_quit_then_exec (s0 : Exec.XSt) (n : Nat)
    (hsd : s0.sdRuns = 0) :
    ((Exec.quitIter (n + 1) s0).quiting = true ∧
     (Exec.quitIter (n + 1) s0).ioStopped = true ∧
     Exec.quitOp (Exec.quitIter (n + 1) s0) = Exec.quitIter (n + 1) s0) ∧
    ∃ s1, Exec.execX (Exec.quitIter (n + 1) s0) = some s1 ∧
      s1.sdRuns = (if s0.running.isEmpty then 0 else 1) ∧
      s1.quiting = true ∧ s1.ioDead = true := by
  obtain ⟨hrun, hque, hsdr⟩ := Exec.quitIter_fields (n + 1) s0
  refine ⟨⟨rfl, rfl, rfl⟩, ?_⟩
  by_cases hempty : s0.running.isEmpty
  · refine ⟨{ Exec.quitIter (n + 1) s0 with ioDead := true }, ?_, ?_, rfl, rfl⟩
    · unfold Exec.execX
      rw [if_pos (by rw [hrun]; exact hempty)]
    · rw [if_pos hempty]
      exact hsdr.trans hsd
  · obtain ⟨s1, hloop, _, _, _, hsd1, hqu1⟩ :=
      Exec.execLoop_stopped ((Exec.quitIter (n + 1) s0).queue.length + 2)
        (Exec.quitIter (n + 1) s0) true rfl (fun h => by cases h) (by simp)
    refine ⟨{ Exec.appShutdownX s1 with ioDead := true }, ?_, ?_, rfl, rfl⟩
    · unfold Exec.execX
      rw [if_neg (by rw [hrun]; exact hempty), hloop]
    · rw [if_neg hempty]
      simp only [Exec.appShutdownX, Exec.quitOp]
      rw [hsd1, hsdr, hsd]

/-- A fresh application state in which nothing was ever started. -/
def c6Empty : Exec.XSt :=
  { running := [], queue := [], ioEvents := [], quiting := false,
    ioStopped := false, sdRuns := 0, ioDead := false }

/-- Counterexample to C6 as stated: with `quit()` called before `exec()`
and no plugin started, `exec()` returns without running `shutdown()` at
all — zero times, not the claimed exactly once — because of the
`if (running_plugins.size())` guard in `application::exec`. -/
theorem claim_c6_counterexample :
    (Exec.execX (Exec.quitOp c6Empty)).map Exec.XSt.sdRuns = some 0 ∧
    (0 : Nat) ≠ 1 :=
  ⟨rfl, by decide⟩

/-- A state with a running plugin and one pending noop task. -/
def c6Busy : Exec.XSt :=
  { running := [3], queue := [⟨5, 0, Exec.TAct.noop⟩], ioEvents := [],
    quiting := false, ioStopped := false, sdRuns := 0, ioDead := false }

/-- Witness for the amended C6: two `quit()` calls on a busy state, then
`exec()` — the flag is set and stable, and shutdown runs exactly
once. -/
theorem claim_c6_quit_then_exec_witness :
    c6Busy.sdRuns = 0 ∧
    (Exec.quitIter 2 c6Busy).quiting = true ∧
    Exec.quitOp (Exec.quitIter 2 c6Busy) = Exec.quitIter 2 c6Busy ∧
    (Exec.execX (Exec.quitIter 2 c6Busy)).map Exec.XSt.sdRuns = some 1 ∧
    (Exec.execX (Exec.quitIter 2 c6Busy)).map Exec.XSt.quiting = some true := by
  obtain ⟨⟨hq, hio, hid⟩, s1, hex, hsd, hqu, hiod⟩ :=
    claim_c6_quit_then_exec c6Busy 1 rfl
  refine ⟨rfl, hq, hid, ?_, ?_⟩
  · rw [hex, Option.map_some']
    rw [hsd]
    rfl
  · rw [hex, Option.map_some', hqu]

namespace Chan

/-- State of one channel together with the scheduler work it creates:
the current subscriber set, the pending posted channel tasks
(priority and the data value copied into the lambda), and the deliveries
performed so far (subscriber, data value). -/
structure CSt where
  subs : List Nat
  queue : List (Int × Nat)
  delivered : List (Nat × Nat)

/-- Modelled from the spec: `has_subscribers()` of the channel class
(channel.hpp is not under src/) — whether the underlying signal has any
connected subscriber. -/
def hasSubscribers (s : CSt) : Bool :=
  !s.subs.isEmpty

/-- Shallow embedding of `channel<Data, DispatchPolicy>::publish`
(application.hpp): if the channel has subscribers, `app().post` exactly
one task at the given priority whose lambda captures a copy of `data`;
nothing is delivered at publish time.  Without subscribers, nothing at
all happens. -/
def publish (pri : Int) (d : Nat) (s : CSt) : CSt :=
  if hasSubscribers s then { s with queue := s.queue ++ [(pri, d)] } else s

/-- Modelled from the spec: dispatch of the posted task — `_signal(data)`
invokes every current subscriber with the captured data value. -/
def dispatchChanTask (d : Nat) (s : CSt) : CSt :=
  { s with delivered := s.delivered ++ s.subs.map (fun x => (x, d)) }

end Chan

/-- Claim C7: publishing with zero subscribers performs no scheduling
work at all (the state, in particular the task queue, is unchanged);
with N ≥ 1 subscribers it posts exactly one task at the given priority
and delivers nothing synchronously; and when that single task is
dispatched every one of the N subscribers receives the same captured
data value. -/
theorem claim_c7_publish_deferred_broadcast
    (s : Chan.CSt) (pri : Int) (d : Nat) :
    (s.subs = [] → Chan.publish pri d s = s) ∧
    (s.subs ≠ [] →
      (Chan.publish pri d s).queue = s.queue ++ [(pri, d)] ∧
      (Chan.publish pri d s).delivered = s.delivered ∧
      (Chan.publish pri d s).subs = s.subs) ∧
    ((Chan.dispatchChanTask d s).delivered
        = s.delivered ++ s.subs.map (fun x => (x, d)) ∧
      (s.subs.map (fun x => (x, d))).length = s.subs.length ∧
      ∀ x ∈ s.subs, (x, d) ∈ (Chan.dispatchChanTask d s).delivered) := by
  refine ⟨?_, ?_, rfl, by simp, ?_⟩
  · intro hempty
    simp [Chan.publish, Chan.hasSubscribers, hempty]
  · intro hne
    have hsub : Chan.hasSubscribers s = true := by
      simp [Chan.hasSubscribers, hne]
    refine ⟨?_, ?_, ?_⟩ <;> simp [Chan.publish, hsub]
  · intro x hx
    simp only [Chan.dispatchChanTask, List.mem_append]
    exact Or.inr (List.mem_map.mpr ⟨x, hx, rfl⟩)

/-- A channel with two subscribers and a fresh queue. -/
def c7St : Chan.CSt := { subs := [4, 9], queue := [], delivered := [] }

/-- A channel with no subscribers. -/
def c7Empty : Chan.CSt := { subs := [], queue := [], delivered := [] }

/-- Witness for C7 at two concrete channels: the subscriber-free publish
is a no-op; with two subscribers one task is posted at priority 5 and
dispatch delivers the same value 42 to both. -/
theorem claim_c7_publish_deferred_broadcast_witness :
    (Chan.publish 5 42 c7Empty = c7Empty) ∧
    ((Chan.publish 5 42 c7St).queue = c7St.queue ++ [(5, 42)] ∧
     (Chan.publish 5 42 c7St).delivered = c7St.delivered) ∧
    (Chan.dispatchChanTask 42 c7St).delivered
      = c7St.delivered ++ c7St.subs.map (fun x => (x, 42)) ∧
    ((4, 42) ∈ (Chan.dispatchChanTask 42 c7St).delivered ∧
     (9, 42) ∈ (Chan.dispatchChanTask 42 c7St).delivered) :=
  ⟨(claim_c7_publish_deferred_broadcast c7Empty 5 42).1 rfl,
   ⟨((claim_c7_publish_deferred_broadcast c7St 5 42).2.1 (by decide)).1,
    ((claim_c7_publish_deferred_broadcast c7St 5 42).2.1 (by decide)).2.1⟩,
   (claim_c7_publish_deferred_broadcast c7St 5 42).2.2.1,
   ⟨(claim_c7_publish_deferred_broadcast c7St 5 42).2.2.2.2 4 (by decide),
    (claim_c7_publish_deferred_broadcast c7St 5 42).2.2.2.2 9 (by decide)⟩⟩

namespace Query

/-- The observable outcome of a plugin query: the found instance, a
raised "unable to find plugin" error, or the undefined behaviour of
dereferencing a null pointer. -/
inductive QueryOutcome where
  | found (i : Nat)
  | notFoundError (msg : String)
  | derefNull
deriving DecidableEq

/-- `application::find_plugin(name)` (application.cpp): look the name up
in the `plugins` map, `nullptr` (here `none`) when absent. -/
def find_plugin (m : List (String × Nat)) (n : String) : Option Nat :=
  Reg.findName m n

/-- `application::get_plugin(name)` (application.cpp): a failed
`find_plugin` raises `std::runtime_error("unable to find plugin: " +
name)` via `BOOST_THROW_EXCEPTION`. -/
def get_plugin (m : List (String × Nat)) (n : String) : QueryOutcome :=
  match find_plugin m n with
  | none => QueryOutcome.notFoundError ("unable to find plugin: " ++ n)
  | some i => QueryOutcome.found i

/-- `application::find_plugin<Plugin>()` (application.hpp): looks up the
demangled type name and `dynamic_cast`s the result; a plugin registered
under its own type name casts to itself, so this is the same name
lookup, null when absent. -/
def find_plugin_typed (m : List (String × Nat)) (n : String) : Option Nat :=
  Reg.findName m n

/-- `application::get_plugin<Plugin>()` (application.hpp): `auto ptr =
find_plugin<Plugin>(); return *ptr;` — there is no null check and no
throw: when the plugin is unregistered the null result is dereferenced,
which is undefined behaviour, not a surfaced NotFound failure. -/
def get_plugin_typed (m : List (String × Nat)) (n : String) : QueryOutcome :=
  match find_plugin_typed m n with
  | none => QueryOutcome.derefNull
  | some i => QueryOutcome.found i

/-- Whether an outcome is a surfaced NotFound failure. -/
def isNotFound : QueryOutcome → Bool
  | QueryOutcome.notFoundError _ => true
  | _ => false

end Query

/-- Counterexample to C8 as stated: querying the unregistered
`net_plugin` by type via `get_plugin<Plugin>()` does not surface a
NotFound failure — it dereferences the null `find_plugin` result —
whereas the by-name query does raise one. -/
theorem claim_c8_counterexample :
    Query.get_plugin_typed [] "net_plugin" = Query.QueryOutcome.derefNull ∧
    Query.isNotFound (Query.get_plugin_typed [] "net_plugin") = false ∧
    Query.isNotFound (Query.get_plugin [] "net_plugin") = true := by
  refine ⟨rfl, rfl, rfl⟩

/-- Claim C8 (amended): querying an unregistered plugin by name raises a
NotFound failure fatal to that call, and `find_plugin` by name returns a
null result rather than failing; but the typed `get_plugin<P>()`
performs no check — it dereferences the possibly-null `find_plugin<P>()`
result, which on an unregistered plugin is undefined behaviour (a null
dereference), not a surfaced NotFound failure.  Registered plugins are
returned by both. -/
theorem claim_c8_notfound_by_name_nullderef_by_type
    (m : List (String × Nat)) (n : String) :
    (Query.find_plugin m n = none →
      Query.get_plugin m n
        = Query.QueryOutcome.notFoundError ("unable to find plugin: " ++ n) ∧
      Query.get_plugin_typed m n = Query.QueryOutcome.derefNull ∧
      Query.isNotFound (Query.get_plugin_typed m n) = false) ∧
    (∀ i, Query.find_plugin m n = some i →
      Query.get_plugin m n = Query.QueryOutcome.found i ∧
      Query.get_plugin_typed m n = Query.QueryOutcome.found i) := by
  constructor
  · intro hnone
    refine ⟨?_, ?_, ?_⟩ <;>
      simp [Query.get_plugin, Query.get_plugin_typed, Query.find_plugin_typed,
        Query.find_plugin, Query.isNotFound] at * <;>
      rw [hnone]
  · intro i hsome
    constructor <;>
      simp only [Query.get_plugin, Query.get_plugin_typed, Query.find_plugin_typed,
        Query.find_plugin] at * <;>
      rw [hsome]

/-- Witness for the amended C8: the empty registry misses, a singleton
registry hits. -/
theorem claim_c8_notfound_by_name_nullderef_by_type_witness :
    (Query.find_plugin [] "net_plugin" = none ∧
     Query.find_plugin [("net_plugin", 3)] "net_plugin" = some 3) ∧
    (Query.get_plugin [] "net_plugin"
       = Query.QueryOutcome.notFoundError ("unable to find plugin: " ++ "net_plugin") ∧
     Query.get_plugin_typed [] "net_plugin" = Query.QueryOutcome.derefNull ∧
     Query.isNotFound (Query.get_plugin_typed [] "net_plugin") = false) ∧
    (Query.get_plugin [("net_plugin", 3)] "net_plugin" = Query.QueryOutcome.found 3 ∧
     Query.get_plugin_typed [("net_plugin", 3)] "net_plugin"
       = Query.QueryOutcome.found 3) :=
  ⟨⟨rfl, rfl⟩,
   (claim_c8_notfound_by_name_nullderef_by_type [] "net_plugin").1 rfl,
   (claim_c8_notfound_by_name_nullderef_by_type [("net_plugin", 3)] "net_plugin").2
     3 rfl⟩

namespace Sighup

/-- Events observable while the posted reload task runs: the
user-supplied `sighup_callback` and each plugin's `handle_sighup`
hook. -/
inductive HEv where
  | callback
  | sighupHook (p : Nat)
deriving DecidableEq

/-- State of the reload-signal machinery: `initialized_plugins`, the
per-plugin lifecycle states, the quiescence flag, the priorities of the
tasks posted so far, how many times the handler has been (re)armed, and
the trace of callback/hook invocations. -/
structure HSt where
  initialized : List Nat
  pstate : Nat → PState
  quiting : Bool
  posted : List Int
  armed : Nat
  trace : List HEv

/-- Modelled from the spec: the value of the named `priority::medium`
convention (the `priority` constants live in headers not under src/;
only the name matters here). -/
def priorityMedium : Int := 50

/-- Shallow embedding of the `async_wait` handler installed by
`application::start_sighup_handler` (application.cpp): on an error the
handler returns without doing anything (and without re-arming); on a
signal delivery it posts exactly one task at `priority::medium` and
re-arms itself for the next occurrence. -/
def onSighupSignal (err : Bool) (s : HSt) : HSt :=
  if err then s
  else { s with posted := s.posted ++ [priorityMedium], armed := s.armed + 1 }

/-- The loop inside the posted task: for each plugin of
`initialized_plugins` in order, return early if `is_quiting()`,
otherwise invoke its `handle_sighup` hook. -/
def sighupLoop : List Nat → HSt → HSt
  | [], s => s
  | p :: ps, s =>
    if s.quiting then s
    else sighupLoop ps { s with trace := s.trace ++ [HEv.sighupHook p] }

/-- The body of the posted task: invoke `sighup_callback()` first, then
walk the initialized plugins. -/
def runSighupTask (s : HSt) : HSt :=
  sighupLoop s.initialized { s with trace := s.trace ++ [HEv.callback] }

/-- The hook loop either stops immediately on quiescence or visits every
initialized plugin in order (`handle_sighup` hooks do not change the
quiescence flag). -/
theorem sighupLoop_trace : ∀ (ps : List Nat) (s : HSt),
    (sighupLoop ps s).trace
      = s.trace ++ (if s.quiting then [] else ps.map HEv.sighupHook) ∧
    (sighupLoop ps s).posted = s.posted ∧
    (sighupLoop ps s).armed = s.armed := by
  intro ps
  induction ps with
  | nil => intro s; simp [sighupLoop]
  | cons p ps ih =>
    intro s
    by_cases hq : s.quiting
    · simp [sighupLoop, hq]
    · have hq2 : s.quiting = false := by simpa using hq
      obtain ⟨h1, h2, h3⟩ := ih { s with trace := s.trace ++ [HEv.sighupHook p] }
      unfold sighupLoop
      rw [if_neg hq, h1, h2, h3]
      simp [hq2]

end Sighup

/-- A state at task-run time in which plugin 7 is `started` but the
quiescence flag is set: reachable, e.g., when a terminate signal stopped
the reactor while the posted reload task was already pending in the
priority queue. -/
def c9St : Sighup.HSt :=
  { initialized := [7], pstate := fun _ => PState.started, quiting := true,
    posted := [], armed := 1, trace := [] }

/-- Counterexample to C9 as stated: a delivery's posted task runs while
plugin 7 is `started`, yet 7's reload hook is never invoked — the task
returns right after the callback because `is_quiting()` is true, a guard
the claim omits. -/
theorem claim_c9_counterexample :
    c9St.pstate 7 = PState.started ∧ 7 ∈ c9St.initialized ∧
    (Sighup.runSighupTask c9St).trace = [Sighup.HEv.callback] ∧
    Sighup.HEv.sighupHook 7 ∉ (Sighup.runSighupTask c9St).trace := by
  refine ⟨rfl, by decide, rfl, by decide⟩

/-- Claim C9 (amended): every delivery of the reload signal, once
re-armed, posts exactly one task at `priority::medium` and re-arms the
handler (an errored wait does neither); when the posted task is
dispatched it first invokes the user-supplied callback and then — if the
quiescence flag is not set — invokes the `handle_sighup` hook of each
plugin in `initialized_plugins`, in initialization order (after a
completed startup these are exactly the started plugins); with the flag
set it stops after the callback. -/
theorem claim_c9_sighup_task (s : Sighup.HSt) :
    (Sighup.onSighupSignal true s = s) ∧
    ((Sighup.onSighupSignal false s).posted
        = s.posted ++ [Sighup.priorityMedium] ∧
      (Sighup.onSighupSignal false s).armed = s.armed + 1 ∧
      (Sighup.onSighupSignal false s).trace = s.trace) ∧
    (Sighup.runSighupTask s).trace
      = s.trace ++ [Sighup.HEv.callback]
        ++ (if s.quiting then [] else s.initialized.map Sighup.HEv.sighupHook) := by
  refine ⟨rfl, ⟨rfl, rfl, rfl⟩, ?_⟩
  obtain ⟨h1, _, _⟩ :=
    Sighup.sighupLoop_trace s.initialized { s with trace := s.trace ++ [Sighup.HEv.callback] }
  unfold Sighup.runSighupTask
  rw [h1]

/-- A not-quiescent state with two initialized (and started) plugins. -/
def c9Live : Sighup.HSt :=
  { initialized := [1, 2], pstate := fun _ => PState.started, quiting := false,
    posted := [], armed := 1, trace := [] }

/-- Witness for the amended C9 at a live two-plugin state. -/
theorem claim_c9_sighup_task_witness :
    (Sighup.onSighupSignal true c9Live = c9Live) ∧
    (Sighup.onSighupSignal false c9Live).posted
      = c9Live.posted ++ [Sighup.priorityMedium] ∧
    (Sighup.onSighupSignal false c9Live).armed = c9Live.armed + 1 ∧
    (Sighup.runSighupTask c9Live).trace
      = c9Live.trace ++ [Sighup.HEv.callback]
        ++ (if c9Live.quiting then []
            else c9Live.initialized.map Sighup.HEv.sighupHook) :=
  ⟨(claim_c9_sighup_task c9Live).1,
   (claim_c9_sighup_task c9Live).2.1.1,
   (claim_c9_sighup_task c9Live).2.1.2.1,
   (claim_c9_sighup_task c9Live).2.2⟩


end Appbase
